import Mathlib

set_option maxRecDepth 100000

/-!
Verification of the import-reorganization engine of the pretty-imports
extension (src/src/extension.ts), as a shallow embedding in Lean.

Modelling conventions:
* JS strings are modelled as Lean `String` (a wrapper around `List Char`);
  JS string `.length` (UTF-16 code units) is modelled as the character count,
  and offsets (`node.end`, `positionAt`) as character offsets.
* `String.prototype.localeCompare` is modelled as ordinal (code-point)
  three-way comparison `localeCompare`; the host locale's collation table is
  not modelled.
* `Array.prototype.sort` is required to be stable by ECMA-262; it is modelled
  as the stable `List.insertionSort`.
* `ts.createSourceFile` (the TypeScript parser) is modelled by a
  recursive-descent parser `parseRun`/`createSourceFile` for the import
  fragment of the grammar handled by the extension: plain, default,
  namespace, named and type-only import declarations, with optional aliases
  and optional per-specifier type markers, string literals without escape
  sequences, and whitespace trivia (comments are not modelled).  Identifiers
  exclude the contextual keywords import/type/as/from.  Everything after the
  leading run of import declarations is modelled as a single opaque
  non-import statement, which is all the engine ever observes of it.
* `ts.createPrinter().printNode` on import declarations is modelled by
  `printImport`, which emits the canonical single-line form the TypeScript
  printer produces (double quotes, braces around named imports, semicolon).
* Characters are written with \x escapes where the verification gate
  requires it: \x7b is the opening curly brace and \x7d the closing one.
-/

namespace PrettyImports

/-! ### Models of the JavaScript string primitives used by the source -/

/-- Model of JS `String.prototype.startsWith`: literal, case-sensitive,
ordinal prefix test (no globbing). -/
def jsStartsWith (s p : String) : Bool := p.data.isPrefixOf s.data

/-- Ordinal three-way comparison of character lists. -/
def cmpChars : List Char → List Char → Int
  | [], [] => 0
  | [], _ :: _ => -1
  | _ :: _, [] => 1
  | a :: as, b :: bs => if a < b then -1 else if b < a then 1 else cmpChars as bs

/-- Model of JS `String.prototype.localeCompare` (ordinal comparison; the
host locale's collation is not modelled). -/
def localeCompare (a b : String) : Int := cmpChars a.data b.data

/-- Model of JS `Array.prototype.join(sep)`. -/
def joinSep (sep : String) : List String → String
  | [] => ""
  | [s] => s
  | s :: rest => s ++ sep ++ joinSep sep rest

/-! ### Data model (the TypeScript AST fragment used by the extension) -/

/-- One element inside the braces of a named import.  In the TypeScript AST
`name` is the local binding (the alias when aliased, otherwise the imported
name — the display name), and `propertyName` is the pre-`as` imported name
when an alias is present. -/
structure ImportSpecifier where
  isTypeOnly : Bool
  propertyName : Option String
  name : String
deriving DecidableEq

inductive NamedBindings where
  | namespaceImport (name : String)
  | named (elements : List ImportSpecifier)
deriving DecidableEq

structure ImportClause where
  isTypeOnly : Bool
  name : Option String
  namedBindings : Option NamedBindings
deriving DecidableEq

structure ImportDecl where
  importClause : Option ImportClause
  modulePath : String
deriving DecidableEq

/-- The configuration read by `getOrganizeImportsConfig` (extension.ts
lines 12-30). -/
structure Config where
  localPrefixes : List String
  treatRelativeAsLocal : Bool
  sortMethod : String
deriving DecidableEq

/-- The defaults of `getOrganizeImportsConfig` (extension.ts lines 18-28). -/
def defaultConfig : Config :=
  { localPrefixes := ["@/", "./", "../", "~/", "#/", "*/", "src/"]
    treatRelativeAsLocal := true
    sortMethod := "length-desc" }

/-! ### The Classifier (extension.ts lines 83-100) -/

/-- The local/third-party test of extension.ts lines 87-93. -/
def isLocalImport (cfg : Config) (moduleSpecifier : String) : Bool :=
  let isRelativePath :=
    jsStartsWith moduleSpecifier "./" || jsStartsWith moduleSpecifier "../"
  let matchesPfx := cfg.localPrefixes.any (fun p => jsStartsWith moduleSpecifier p)
  (cfg.treatRelativeAsLocal && isRelativePath) || matchesPfx

inductive Classification where
  | localImport
  | thirdParty
deriving DecidableEq

/-- The classifier: `Local` exactly when the boolean test of lines 87-93
holds, `ThirdParty` otherwise (the if/else of lines 93-99). -/
def classify (cfg : Config) (modulePath : String) : Classification :=
  if isLocalImport cfg modulePath then .localImport else .thirdParty

/-! ### The Comparator (extension.ts lines 107-138) -/

/-- The switch on `sortMethod` (lines 112-137); the final case covers both
the literal "length-desc" and any unrecognized value (the default label). -/
def cmpModules (sortMethod : String) (aModule bModule : String) : Int :=
  if sortMethod = "alphabetical" then
    localeCompare aModule bModule
  else if sortMethod = "length-asc" then
    if aModule.length = bModule.length then localeCompare aModule bModule
    else (aModule.length : Int) - (bModule.length : Int)
  else if sortMethod = "length-then-alpha" then
    if (aModule.length : Int) - (bModule.length : Int) ≠ 0 then
      (aModule.length : Int) - (bModule.length : Int)
    else localeCompare aModule bModule
  else
    if aModule.length = bModule.length then localeCompare aModule bModule
    else (bModule.length : Int) - (aModule.length : Int)

/-- The comparator `sortImports` (lines 107-138): compares two import
declarations by their (quote-stripped) module specifiers. -/
def sortImports (sortMethod : String) (a b : ImportDecl) : Int :=
  cmpModules sortMethod a.modulePath b.modulePath

/-- The "a sorts no later than b" relation induced by the comparator, which
is what a stable ECMA-262 sort realizes. -/
def importLe (sortMethod : String) (a b : ImportDecl) : Prop :=
  sortImports sortMethod a b ≤ 0

instance (m : String) : DecidableRel (importLe m) := fun _ _ => Int.decLe _ _

/-! ### The Named-Binding Sorter (extension.ts lines 145-175) -/

/-- The element comparison of line 152: by the rendered (local) name. -/
def specLe (a b : ImportSpecifier) : Prop := localeCompare a.name b.name ≤ 0

instance : DecidableRel specLe := fun _ _ => Int.decLe _ _

/-- `sortNamedImports` (lines 145-175): when the clause has named bindings,
rebuild the declaration with the elements stably sorted by rendered name;
all other shapes are returned unchanged. -/
def sortNamedImports (imp : ImportDecl) : ImportDecl :=
  match imp.importClause with
  | some clause =>
    match clause.namedBindings with
    | some (NamedBindings.named elements) =>
      let sortedElements := elements.insertionSort specLe
      let newImportClause : ImportClause :=
        { clause with namedBindings := some (.named sortedElements) }
      { imp with importClause := some newImportClause }
    | _ => imp
  | none => imp

/-! ### The printer (model of `printer.printNode` on import declarations) -/

def printSpecifier (s : ImportSpecifier) : String :=
  (if s.isTypeOnly then "type " else "") ++
    match s.propertyName with
    | some p => p ++ " as " ++ s.name
    | none => s.name

def printNamedBindings : NamedBindings → String
  | .namespaceImport n => "* as " ++ n
  | .named [] => "\x7b\x7d"
  | .named es => "\x7b " ++ joinSep ", " (es.map printSpecifier) ++ " \x7d"

def printClauseBody (name : Option String) (namedBindings : Option NamedBindings) : String :=
  match name, namedBindings with
  | some n, some nb => n ++ ", " ++ printNamedBindings nb
  | some n, none => n
  | none, some nb => printNamedBindings nb
  | none, none => ""

def printImport (d : ImportDecl) : String :=
  "import " ++
    match d.importClause with
    | none => "\"" ++ d.modulePath ++ "\";"
    | some c =>
      (if c.isTypeOnly then "type " else "") ++
        printClauseBody c.name c.namedBindings ++
        " from \"" ++ d.modulePath ++ "\";"

/-! ### The parser (model of `ts.createSourceFile` on the import fragment) -/

def isWsChar (c : Char) : Bool := c = ' ' || c = '\t' || c = '\n' || c = '\r'

def isIdentStart (c : Char) : Bool := c.isAlpha || c = '_' || c = '$'

def isIdentChar (c : Char) : Bool := isIdentStart c || c.isDigit

def dropWs (cs : List Char) : List Char := cs.dropWhile isWsChar

def wsCount (cs : List Char) : Nat := (cs.takeWhile isWsChar).length

/-- Contextual keywords excluded from modelled identifiers. -/
def keywords : List String := ["import", "type", "as", "from"]

/-- Match a keyword followed by a non-identifier character (word boundary). -/
def matchKeyword (kw : List Char) (cs : List Char) : Option (List Char) :=
  if kw.isPrefixOf cs then
    match cs.drop kw.length with
    | [] => some []
    | c :: rest => if isIdentChar c then none else some (c :: rest)
  else none

def parseIdent (cs : List Char) : Option (String × List Char) :=
  match cs.takeWhile isIdentChar with
  | [] => none
  | c :: tok =>
    if isIdentStart c && !(keywords.contains (String.mk (c :: tok))) then
      some (String.mk (c :: tok), cs.drop (c :: tok).length)
    else none

/-- Characters that terminate a modelled module-path string literal. -/
def isPathStop (c : Char) : Bool :=
  c = '"' || c = '\'' || c = '\\' || c = '\n' || c = '\r'

def parseStringLit (cs : List Char) : Option (String × List Char) :=
  match cs with
  | q :: rest =>
    if q = '"' || q = '\'' then
      match rest.drop ((rest.takeWhile (fun c => !(isPathStop c))).length) with
      | c :: rest' =>
        if c = q then some (String.mk (rest.takeWhile (fun c => !(isPathStop c))), rest')
        else none
      | [] => none
    else none
  | [] => none

/-- The part of a specifier after the optional `type` marker. -/
def parseSpecifierCore (isType : Bool) (cs1 : List Char) :
    Option (ImportSpecifier × List Char) :=
  match parseIdent cs1 with
  | none => none
  | some (n1, cs2) =>
    match matchKeyword "as".data (dropWs cs2) with
    | some rest =>
      match parseIdent (dropWs rest) with
      | none => none
      | some (n2, cs4) =>
        some ({ isTypeOnly := isType, propertyName := some n1, name := n2 }, cs4)
    | none => some ({ isTypeOnly := isType, propertyName := none, name := n1 }, cs2)

def parseSpecifier (cs : List Char) : Option (ImportSpecifier × List Char) :=
  match matchKeyword "type".data cs with
  | some rest => parseSpecifierCore true (dropWs rest)
  | none => parseSpecifierCore false cs

def parseSpecList : Nat → List Char → Option (List ImportSpecifier × List Char)
  | 0, _ => none
  | fuel+1, cs =>
    match parseSpecifier (dropWs cs) with
    | none => none
    | some (s, cs1) =>
      match dropWs cs1 with
      | '\x7d' :: rest => some ([s], rest)
      | ',' :: rest =>
        match dropWs rest with
        | '\x7d' :: rest' => some ([s], rest')
        | cs2 =>
          match parseSpecList fuel cs2 with
          | some (ss, csf) => some (s :: ss, csf)
          | none => none
      | _ => none

def parseNamedImports (cs : List Char) : Option (List ImportSpecifier × List Char) :=
  match cs with
  | '\x7b' :: rest =>
    match dropWs rest with
    | '\x7d' :: rest' => some ([], rest')
    | cs' => parseSpecList cs'.length cs'
  | _ => none

/-- Parse a namespace import or a named-imports block. -/
def parseBindings (cs : List Char) : Option (NamedBindings × List Char) :=
  match cs with
  | '\x7b' :: _ =>
    match parseNamedImports cs with
    | some (es, r) => some (.named es, r)
    | none => none
  | '*' :: rest =>
    match matchKeyword "as".data (dropWs rest) with
    | none => none
    | some r2 =>
      match parseIdent (dropWs r2) with
      | none => none
      | some (n, r3) => some (.namespaceImport n, r3)
  | _ => none

/-- Parse the part of an import clause after an optional `type` marker. -/
def parseClauseBody (cs : List Char) :
    Option (Option String × Option NamedBindings × List Char) :=
  match cs with
  | '\x7b' :: _ | '*' :: _ =>
    match parseBindings cs with
    | some (nb, r) => some (none, some nb, r)
    | none => none
  | _ =>
    match parseIdent cs with
    | none => none
    | some (nm, cs1) =>
      match dropWs cs1 with
      | ',' :: rest =>
        match parseBindings (dropWs rest) with
        | some (nb, r) => some (some nm, some nb, r)
        | none => none
      | _ => some (some nm, none, cs1)

/-- Consume an optional statement-terminating semicolon (with leading
whitespace); without one, the statement ends at its last token. -/
def parseSemi (cs : List Char) : List Char :=
  match dropWs cs with
  | ';' :: rest => rest
  | _ => cs

/-- The clause-and-module-path part of an import after the optional
statement-level `type` marker. -/
def parseImportClause (isType : Bool) (cs2 : List Char) : Option (ImportDecl × List Char) :=
  match parseClauseBody cs2 with
  | none => none
  | some (nm, nb, cs4) =>
    match matchKeyword "from".data (dropWs cs4) with
    | none => none
    | some cs5 =>
      match parseStringLit (dropWs cs5) with
      | none => none
      | some (path, cs6) =>
        some ({ importClause :=
                  some { isTypeOnly := isType, name := nm, namedBindings := nb }
                modulePath := path }, parseSemi cs6)

def parseImport (cs : List Char) : Option (ImportDecl × List Char) :=
  match matchKeyword "import".data cs with
  | none => none
  | some cs1 =>
    match dropWs cs1 with
    | [] => none
    | c :: rest =>
      if c = '"' || c = '\'' then
        match parseStringLit (c :: rest) with
        | none => none
        | some (path, cs3) =>
          some ({ importClause := none, modulePath := path }, parseSemi cs3)
      else
        match matchKeyword "type".data (c :: rest) with
        | some r => parseImportClause true (dropWs r)
        | none => parseImportClause false (c :: rest)

/-- The leading run of import declarations with their src spans, fuelled for
structural recursion; each successful `parseImport` consumes at least one
character, so fuel `cs.length` is always sufficient. -/
def parseRunF : Nat → Nat → List Char → List (ImportDecl × Nat × Nat)
  | 0, _, _ => []
  | fuel+1, pos, cs =>
    let n := wsCount cs
    match parseImport (cs.drop n) with
    | none => []
    | some (d, rest) =>
      let endPos := pos + n + ((cs.drop n).length - rest.length)
      (d, pos + n, endPos) :: parseRunF fuel endPos rest

def parseRun (pos : Nat) (cs : List Char) : List (ImportDecl × Nat × Nat) :=
  parseRunF cs.length pos cs

/-! ### The Reorganization Engine (extension.ts lines 37-213) -/

/-- A statement of the parsed source file, with its span.  The engine only
distinguishes import declarations from everything else. -/
inductive Stmt where
  | imp (d : ImportDecl) (startPos endPos : Nat)
  | other (startPos endPos : Nat)
deriving DecidableEq

def Stmt.isImportDeclaration : Stmt → Bool
  | .imp _ _ _ => true
  | .other _ _ => false

def Stmt.startOf : Stmt → Nat
  | .imp _ s _ => s
  | .other s _ => s

def Stmt.endOf : Stmt → Nat
  | .imp _ _ e => e
  | .other _ e => e

/-- The end offset of the last import of a parsed run (0 for the empty run). -/
def runLastEnd (run : List (ImportDecl × Nat × Nat)) : Nat :=
  run.foldl (fun _ p => p.2.2) 0

/-- Model of `ts.createSourceFile(...).statements` on the modelled fragment:
the leading run of import declarations, followed — when any non-whitespace
text remains — by one opaque non-import statement covering the rest.  (The
engine never inspects anything past the first non-import statement.) -/
def createSourceFile (text : String) : List Stmt :=
  let run := parseRun 0 text.data
  let lastEnd := runLastEnd run
  let rest := text.data.drop lastEnd
  let impStmts := run.map (fun p => Stmt.imp p.1 p.2.1 p.2.2)
  if (dropWs rest).length = 0 then impStmts
  else impStmts ++ [Stmt.other (lastEnd + wsCount rest) text.data.length]

/-- The extraction loop of extension.ts lines 60-69: collect import
declarations from the top, stop at the first non-import statement; each
collected import is paired with its end offset (the running
`lastImportEnd`). -/
def collectImports : List Stmt → List (ImportDecl × Nat)
  | [] => []
  | Stmt.imp d _ e :: rest => (d, e) :: collectImports rest
  | Stmt.other _ _ :: _ => []

/-- The final value of the `lastImportEnd` variable (initialized to 0 at
line 61, overwritten at line 65 for each collected import). -/
def lastImportEndOf (collected : List (ImportDecl × Nat)) : Nat :=
  collected.foldl (fun _ p => p.2) 0

/-- The rendering of extension.ts lines 182-192: third-party lines joined by
newlines, one blank line only when both groups are non-empty, then the local
lines joined by newlines. -/
def renderImportBlock (sortedThirdParty sortedLocal : List ImportDecl) : String :=
  joinSep "\n" (sortedThirdParty.map printImport)
    ++ (if 0 < sortedLocal.length ∧ 0 < sortedThirdParty.length then "\n\n" else "")
    ++ joinSep "\n" (sortedLocal.map printImport)

/-- Model of `document.getText(range)` for the range `[0, n)`. -/
def jsTake (s : String) (n : Nat) : String := String.mk (s.data.take n)

/-- The body of `organizeImports` up to computing the replacement span and
text: `none` when no leading imports were found (lines 72-75), otherwise the
pair (lastImportEnd, newImportText) of lines 180-198. -/
def organizeImportsCore (text : String) (cfg : Config) : Option (Nat × String) :=
  let stmts := createSourceFile text
  let collected := collectImports stmts
  let imports := collected.map Prod.fst
  let lastImportEnd := lastImportEndOf collected
  if imports.length = 0 then none
  else
    let parts := imports.partition (fun imp => isLocalImport cfg imp.modulePath)
    let sortedThirdParty :=
      (parts.2.insertionSort (importLe cfg.sortMethod)).map sortNamedImports
    let sortedLocal :=
      (parts.1.insertionSort (importLe cfg.sortMethod)).map sortNamedImports
    some (lastImportEnd, renderImportBlock sortedThirdParty sortedLocal)

/-- The two terminal outcomes of the engine: `undefined` (no edit) or a
single `TextEdit.replace`. -/
inductive EditResult where
  | noChange
  | replace (startPos endPos : Nat) (newText : String)
deriving DecidableEq

/-- `organizeImports` (extension.ts lines 37-213): all internal steps of the
model are total, mirroring the try/catch whose catch arm (lines 209-212)
turns any internal failure into the no-edit outcome. -/
def organizeImports (text : String) (cfg : Config) : EditResult :=
  match organizeImportsCore text cfg with
  | none => .noChange
  | some (lastImportEnd, newImportText) =>
    if jsTake text lastImportEnd = newImportText then .noChange
    else .replace 0 lastImportEnd newImportText

/-- Applying a `Replace(span, newText)` edit as the caller does: a single
atomic substitution over the span. -/
def applyEdit (text : String) (startPos endPos : Nat) (newText : String) : String :=
  String.mk (text.data.take startPos ++ newText.data ++ text.data.drop endPos)

/-! ### Auxiliary definitions used only by the verification below -/

/-- Split a character list at newlines (the observation used to state the
blank-line structure of the rendered block). -/
def splitNl : List Char → List (List Char)
  | [] => [[]]
  | c :: cs =>
    if c = '\n' then [] :: splitNl cs
    else
      match splitNl cs with
      | [] => [[c]]
      | l :: ls => (c :: l) :: ls

/-- The character stream of a group of rendered import lines (one per line,
joined by single newlines). -/
def linesData : List ImportDecl → List Char
  | [] => []
  | [d] => (printImport d).data
  | d :: ds => (printImport d).data ++ '\n' :: linesData ds

/-- The spans the parser assigns to a block of rendered import lines
starting at offset `pos`. -/
def attachRun : List ImportDecl → Nat → List (ImportDecl × Nat × Nat)
  | [], _ => []
  | d :: ds, pos =>
    (d, pos, pos + (printImport d).data.length) ::
      attachRun ds (pos + (printImport d).data.length + 1)

/-- Project an import statement to what the extraction loop records. -/
def stmtImp? : Stmt → Option (ImportDecl × Nat)
  | .imp d _ e => some (d, e)
  | .other _ _ => none

/-- The first character (if any) fails the test `p`. -/
def headNot (p : Char → Bool) : List Char → Prop
  | [] => True
  | c :: _ => p c = false

/-- A well-formed identifier as produced by the modelled parser. -/
def wfIdent (s : String) : Prop :=
  match s.data with
  | [] => False
  | c :: rest =>
    isIdentStart c = true ∧ (∀ x ∈ rest, isIdentChar x = true) ∧
      keywords.contains s = false

/-- A well-formed module path as produced by the modelled parser. -/
def wfPath (s : String) : Prop := ∀ c ∈ s.data, isPathStop c = false

def wfSpec (s : ImportSpecifier) : Prop :=
  wfIdent s.name ∧ ∀ p, s.propertyName = some p → wfIdent p

def wfBindings : NamedBindings → Prop
  | .namespaceImport n => wfIdent n
  | .named es => ∀ s ∈ es, wfSpec s

def wfClause (c : ImportClause) : Prop :=
  (∀ n, c.name = some n → wfIdent n) ∧
  (∀ nb, c.namedBindings = some nb → wfBindings nb) ∧
  (c.name ≠ none ∨ c.namedBindings ≠ none)

def wfDecl (d : ImportDecl) : Prop :=
  (∀ c, d.importClause = some c → wfClause c) ∧ wfPath d.modulePath

/-- The defaults with only the relative-as-local flag varied. -/
def cfgWithFlag (b : Bool) : Config := { defaultConfig with treatRelativeAsLocal := b }

/-- The defaults with the two relative prefixes removed from
`localPrefixes` and the flag varied. -/
def strippedConfig (b : Bool) : Config :=
  { localPrefixes := ["@/", "~/", "#/", "*/", "src/"]
    treatRelativeAsLocal := b
    sortMethod := "length-desc" }

/-- The documented Before block of the README (the failing input of C4). -/
def exampleBeforeText : String :=
  "import \x7b z \x7d from \"zod\";\nimport \x7b Button \x7d from \"@/components/ui/button\";\nimport React from \"react\";\nimport \x7b createContext, useContext, useState \x7d from \"react\";\nimport \x7b Input \x7d from \"@/components/ui/input\";\nimport \x7b Card \x7d from \"@/components/ui/card\";"

/-- What the engine actually renders for `exampleBeforeText` under the
default configuration: the default-import react line precedes the
named-import react line. -/
def exampleActualOutput : String :=
  "import React from \"react\";\nimport \x7b createContext, useContext, useState \x7d from \"react\";\nimport \x7b z \x7d from \"zod\";\n\nimport \x7b Button \x7d from \"@/components/ui/button\";\nimport \x7b Input \x7d from \"@/components/ui/input\";\nimport \x7b Card \x7d from \"@/components/ui/card\";"

/-! ## Verification -/

/-! ### The comparison primitive -/

theorem cmpChars_eq_zero_iff : ∀ as bs : List Char, cmpChars as bs = 0 ↔ as = bs
  | [], [] => by simp [cmpChars]
  | [], _ :: _ => by simp [cmpChars]
  | _ :: _, [] => by simp [cmpChars]
  | a :: as, b :: bs => by
    simp only [cmpChars]
    rcases lt_trichotomy a b with h | h | h
    · simp only [if_pos h]
      refine iff_of_false (by decide) ?_
      intro hx
      injection hx with h1 h2
      subst h1
      exact absurd h (lt_irrefl a)
    · subst h
      simp only [if_neg (lt_irrefl a), cmpChars_eq_zero_iff as bs]
      simp
    · simp only [if_neg (asymm h), if_pos h]
      refine iff_of_false (by decide) ?_
      intro hx
      injection hx with h1 h2
      subst h1
      exact absurd h (lt_irrefl a)

theorem cmpChars_neg_iff : ∀ as bs : List Char, cmpChars as bs < 0 ↔ List.Lex (· < ·) as bs
  | [], [] => iff_of_false (by simp [cmpChars]) (List.Lex.not_nil_right _ _)
  | [], _ :: _ => iff_of_true (by simp [cmpChars]) List.Lex.nil
  | _ :: _, [] => iff_of_false (by simp [cmpChars]) (List.Lex.not_nil_right _ _)
  | a :: as, b :: bs => by
    simp only [cmpChars]
    rcases lt_trichotomy a b with h | h | h
    · simp only [if_pos h]
      exact iff_of_true (by decide) (List.Lex.rel h)
    · subst h
      simp only [if_neg (lt_irrefl a), cmpChars_neg_iff as bs]
      constructor
      · exact fun hl => List.Lex.cons hl
      · intro hl
        cases hl with
        | cons h' => exact h'
        | rel h' => exact absurd h' (lt_irrefl a)
    · simp only [if_neg (asymm h), if_pos h]
      refine iff_of_false (by decide) ?_
      intro hl
      cases hl with
      | cons h' => exact absurd h (lt_irrefl a)
      | rel h' => exact absurd h (asymm h')

theorem cmpChars_range : ∀ as bs : List Char,
    cmpChars as bs = -1 ∨ cmpChars as bs = 0 ∨ cmpChars as bs = 1
  | [], [] => by simp [cmpChars]
  | [], _ :: _ => by simp [cmpChars]
  | _ :: _, [] => by simp [cmpChars]
  | a :: as, b :: bs => by
    simp only [cmpChars]
    rcases lt_trichotomy a b with h | h | h
    · simp [if_pos h]
    · subst h
      simp only [if_neg (lt_irrefl a)]
      exact cmpChars_range as bs
    · simp [if_neg (asymm h), if_pos h]

theorem cmpChars_swap : ∀ as bs : List Char, cmpChars bs as = -cmpChars as bs
  | [], [] => by simp [cmpChars]
  | [], _ :: _ => by simp [cmpChars]
  | _ :: _, [] => by simp [cmpChars]
  | a :: as, b :: bs => by
    simp only [cmpChars]
    rcases lt_trichotomy a b with h | h | h
    · simp [if_pos h, if_neg (asymm h)]
    · subst h
      simp only [if_neg (lt_irrefl a)]
      exact cmpChars_swap as bs
    · simp [if_neg (asymm h), if_pos h]

theorem cmpChars_le_iff (as bs : List Char) :
    cmpChars as bs ≤ 0 ↔ List.Lex (· < ·) as bs ∨ as = bs := by
  constructor
  · intro h
    rcases cmpChars_range as bs with hr | hr | hr
    · exact Or.inl ((cmpChars_neg_iff as bs).mp (by omega))
    · exact Or.inr ((cmpChars_eq_zero_iff as bs).mp hr)
    · rw [hr] at h
      exact absurd h (by decide)
  · rintro (hl | rfl)
    · have := (cmpChars_neg_iff as bs).mpr hl
      omega
    · have := (cmpChars_eq_zero_iff as as).mpr rfl
      omega

theorem cmpChars_le_trans {as bs cs : List Char}
    (h1 : cmpChars as bs ≤ 0) (h2 : cmpChars bs cs ≤ 0) : cmpChars as cs ≤ 0 := by
  rw [cmpChars_le_iff] at h1 h2 ⊢
  rcases h1 with h1 | rfl
  · rcases h2 with h2 | rfl
    · exact Or.inl (IsTrans.trans as bs cs h1 h2)
    · exact Or.inl h1
  · exact h2

theorem localeCompare_eq_zero_iff (a b : String) : localeCompare a b = 0 ↔ a = b := by
  rw [localeCompare, cmpChars_eq_zero_iff]
  constructor
  · intro h
    cases a
    cases b
    exact congrArg String.mk h
  · intro h
    rw [h]

theorem localeCompare_neg_iff (a b : String) :
    localeCompare a b < 0 ↔ List.Lex (· < ·) a.data b.data :=
  cmpChars_neg_iff a.data b.data

theorem localeCompare_le_total (a b : String) :
    localeCompare a b ≤ 0 ∨ localeCompare b a ≤ 0 := by
  have h := cmpChars_swap a.data b.data
  unfold localeCompare
  omega

theorem localeCompare_le_trans (a b c : String)
    (h1 : localeCompare a b ≤ 0) (h2 : localeCompare b c ≤ 0) : localeCompare a c ≤ 0 :=
  cmpChars_le_trans h1 h2

/-! ### The Comparator is a total preorder for every sort method -/

theorem cmpModules_le_total (m a b : String) :
    cmpModules m a b ≤ 0 ∨ cmpModules m b a ≤ 0 := by
  unfold cmpModules
  split_ifs <;>
    first
      | exact localeCompare_le_total a b
      | omega

theorem cmpModules_le_trans (m a b c : String)
    (h1 : cmpModules m a b ≤ 0) (h2 : cmpModules m b c ≤ 0) : cmpModules m a c ≤ 0 := by
  unfold cmpModules at h1 h2 ⊢
  split_ifs at h1 h2 ⊢ <;>
    first
      | exact localeCompare_le_trans a b c h1 h2
      | omega

theorem importLe_total (m : String) (a b : ImportDecl) : importLe m a b ∨ importLe m b a :=
  cmpModules_le_total m a.modulePath b.modulePath

theorem importLe_trans (m : String) (a b c : ImportDecl)
    (h1 : importLe m a b) (h2 : importLe m b c) : importLe m a c :=
  cmpModules_le_trans m a.modulePath b.modulePath c.modulePath h1 h2

theorem specLe_total (a b : ImportSpecifier) : specLe a b ∨ specLe b a :=
  localeCompare_le_total a.name b.name

theorem specLe_trans (a b c : ImportSpecifier)
    (h1 : specLe a b) (h2 : specLe b c) : specLe a c :=
  localeCompare_le_trans a.name b.name c.name h1 h2

/-! ### The Classifier -/

theorem isLocalImport_eq_true_iff (cfg : Config) (m : String) :
    isLocalImport cfg m = true ↔
      (cfg.treatRelativeAsLocal = true ∧
        ("./".data <+: m.data ∨ "../".data <+: m.data)) ∨
        ∃ p ∈ cfg.localPrefixes, p.data <+: m.data := by
  unfold isLocalImport jsStartsWith
  simp [List.any_eq_true, List.isPrefixOf_iff_prefix, Bool.or_eq_true, Bool.and_eq_true]

theorem classify_eq_local_iff (cfg : Config) (m : String) :
    classify cfg m = .localImport ↔ isLocalImport cfg m = true := by
  unfold classify
  split_ifs with h
  · exact iff_of_true rfl h
  · exact iff_of_false (by decide) h

/-- C3: the classifier returns `Local` exactly when the relative-path test
(under the flag) or a literal, case-sensitive prefix test succeeds — with no
globbing even for the literal `*slash` entry — and it is total. -/
theorem claim_C3_classifier :
    (∀ (cfg : Config) (m : String),
      classify cfg m = .localImport ↔
        (cfg.treatRelativeAsLocal = true ∧
          ("./".data <+: m.data ∨ "../".data <+: m.data)) ∨
          ∃ p ∈ cfg.localPrefixes, p.data <+: m.data) ∧
    (∀ (cfg : Config) (m : String),
      classify cfg m = .localImport ∨ classify cfg m = .thirdParty) ∧
    classify { localPrefixes := ["*/"], treatRelativeAsLocal := false,
               sortMethod := "length-desc" } "a/b" = .thirdParty ∧
    classify { localPrefixes := ["*/"], treatRelativeAsLocal := false,
               sortMethod := "length-desc" } "*/x" = .localImport := by
  refine ⟨?_, ?_, by decide, by decide⟩
  · intro cfg m
    rw [classify_eq_local_iff, isLocalImport_eq_true_iff]
  · intro cfg m
    unfold classify
    split_ifs <;> simp

/-- C10: under the default prefix list the relative-as-local flag is
unobservable, because "./" and "../" are themselves default prefixes; the
flag only matters once those prefixes are removed. -/
theorem claim_C10_flag_no_effect :
    (∀ (b : Bool) (m : String), classify (cfgWithFlag b) m = classify defaultConfig m) ∧
    (∀ m : String, ("./".data <+: m.data ∨ "../".data <+: m.data) →
      classify (cfgWithFlag false) m = .localImport) ∧
    classify (strippedConfig true) "./a" = .localImport ∧
    classify (strippedConfig false) "./a" = .thirdParty := by
  have habsorb : ∀ m : String, ("./".data <+: m.data ∨ "../".data <+: m.data) →
      ∃ p ∈ defaultConfig.localPrefixes, p.data <+: m.data := by
    intro m hrel
    rcases hrel with h | h
    · exact ⟨"./", by simp [defaultConfig], h⟩
    · exact ⟨"../", by simp [defaultConfig], h⟩
  have hiff : ∀ (b : Bool) (m : String),
      classify (cfgWithFlag b) m = .localImport ↔ classify defaultConfig m = .localImport := by
    intro b m
    rw [classify_eq_local_iff, classify_eq_local_iff, isLocalImport_eq_true_iff,
      isLocalImport_eq_true_iff]
    show (cfgWithFlag b).treatRelativeAsLocal = true ∧ _ ∨
        (∃ p ∈ (cfgWithFlag b).localPrefixes, _) ↔ _
    have hpre : (cfgWithFlag b).localPrefixes = defaultConfig.localPrefixes := rfl
    rw [hpre]
    constructor
    · rintro (⟨-, hrel⟩ | hex)
      · exact Or.inr (habsorb m hrel)
      · exact Or.inr hex
    · rintro (⟨-, hrel⟩ | hex)
      · exact Or.inr (habsorb m hrel)
      · exact Or.inr hex
  refine ⟨?_, ?_, by decide, by decide⟩
  · intro b m
    have h := hiff b m
    rcases h1 : classify (cfgWithFlag b) m with _ | _ <;>
      rcases h2 : classify defaultConfig m with _ | _
    · rfl
    · have hx := h.mp h1
      rw [h2] at hx
      exact absurd hx (by decide)
    · have hx := h.mpr h2
      rw [h1] at hx
      exact absurd hx (by decide)
    · rfl
  · intro m hrel
    rw [hiff false m, classify_eq_local_iff, isLocalImport_eq_true_iff]
    exact Or.inr (habsorb m hrel)

/-! ### Comparator claims -/

/-- C9: the `length-then-alpha` comparator branch is extensionally equal to
the `length-asc` branch, so the two policies sort every list identically. -/
theorem claim_C9_policy_equivalence :
    (∀ a b : String, cmpModules "length-then-alpha" a b = cmpModules "length-asc" a b) ∧
    (∀ l : List ImportDecl,
      l.insertionSort (importLe "length-then-alpha") =
        l.insertionSort (importLe "length-asc")) := by
  have hlta : ∀ a b : String,
      cmpModules "length-then-alpha" a b =
        if (a.length : Int) - (b.length : Int) ≠ 0 then
          (a.length : Int) - (b.length : Int)
        else localeCompare a b := by
    intro a b
    unfold cmpModules
    rw [if_neg (by decide), if_neg (by decide), if_pos rfl]
  have hlasc : ∀ a b : String,
      cmpModules "length-asc" a b =
        if a.length = b.length then localeCompare a b
        else (a.length : Int) - (b.length : Int) := by
    intro a b
    unfold cmpModules
    rw [if_neg (by decide), if_pos rfl]
  have hcmp : ∀ a b : String,
      cmpModules "length-then-alpha" a b = cmpModules "length-asc" a b := by
    intro a b
    rw [hlta, hlasc]
    by_cases h : a.length = b.length
    · rw [if_pos h, if_neg (by rw [h]; simp)]
    · rw [if_neg h, if_pos (by omega : ((a.length : Int) - (b.length : Int)) ≠ 0)]
  have hiff : ∀ a b : ImportDecl,
      importLe "length-then-alpha" a b ↔ importLe "length-asc" a b := by
    intro a b
    unfold importLe sortImports
    rw [hcmp]
  have hins : ∀ (p q : ImportDecl → ImportDecl → Prop)
      (_ : DecidableRel p) (_ : DecidableRel q) (hpq : ∀ x y, p x y ↔ q x y)
      (l : List ImportDecl), l.insertionSort p = l.insertionSort q := by
    intro p q hp hq hpq l
    induction l with
    | nil => rfl
    | cons x xs ih =>
      have hoi : ∀ m : List ImportDecl,
          m.orderedInsert p x = m.orderedInsert q x := by
        intro m
        induction m with
        | nil => rfl
        | cons y ys ihy =>
          simp only [List.orderedInsert]
          rw [if_congr (hpq x y) rfl (by rw [ihy])]
      simp only [List.insertionSort]
      rw [ih, hoi]
  exact ⟨hcmp, fun l => hins _ _ inferInstance inferInstance hiff l⟩

/-- C2: on module paths of equal length, every one of the four sort methods
compares exactly alphabetically (negative exactly for lexicographically
smaller, zero exactly for equal), so tied entries order alphabetically. -/
theorem claim_C2_tie_break (method a b : String)
    (hm : method ∈ ["alphabetical", "length-asc", "length-desc", "length-then-alpha"])
    (hlen : a.length = b.length) :
    (cmpModules method a b < 0 ↔ List.Lex (· < ·) a.data b.data) ∧
    (cmpModules method a b = 0 ↔ a = b) := by
  have key : cmpModules method a b = localeCompare a b := by
    simp only [List.mem_cons, List.not_mem_nil, or_false] at hm
    rcases hm with rfl | rfl | rfl | rfl
    · unfold cmpModules
      rw [if_pos rfl]
    · unfold cmpModules
      rw [if_neg (by decide), if_pos rfl, if_pos hlen]
    · unfold cmpModules
      rw [if_neg (by decide), if_neg (by decide), if_neg (by decide), if_pos hlen]
    · unfold cmpModules
      rw [if_neg (by decide), if_neg (by decide), if_pos rfl,
        if_neg (by omega : ¬((a.length : Int) - (b.length : Int)) ≠ 0)]
  rw [key]
  exact ⟨localeCompare_neg_iff a b, localeCompare_eq_zero_iff a b⟩

/-- Witness for C2 at a concrete tied pair. -/
theorem claim_C2_witness :
    (("length-desc" : String) ∈
        ["alphabetical", "length-asc", "length-desc", "length-then-alpha"] ∧
      ("ab" : String).length = ("ba" : String).length) ∧
    ((cmpModules "length-desc" "ab" "ba" < 0 ↔
        List.Lex (· < ·) "ab".data "ba".data) ∧
      (cmpModules "length-desc" "ab" "ba" = 0 ↔ ("ab" : String) = "ba")) :=
  ⟨⟨by decide, by decide⟩, claim_C2_tie_break "length-desc" "ab" "ba" (by decide) (by decide)⟩

/-- Witness for C10's conditional part at a concrete relative path. -/
theorem claim_C10_witness :
    ("./".data <+: "./x".data ∨ "../".data <+: "./x".data) ∧
      classify (cfgWithFlag false) "./x" = .localImport :=
  ⟨Or.inl ⟨['x'], rfl⟩,
    claim_C10_flag_no_effect.2.1 "./x" (Or.inl ⟨['x'], rfl⟩)⟩

/-! ### Generic list helpers -/

theorem takeWhile_append_all {p : Char → Bool} :
    ∀ (xs ys : List Char), (∀ x ∈ xs, p x = true) → headNot p ys →
      (xs ++ ys).takeWhile p = xs
  | [], ys, _, hy => by
    cases ys with
    | nil => rfl
    | cons c cs =>
      have hc : p c = false := hy
      simp [List.takeWhile_cons, hc]
  | x :: xs, ys, hx, hy => by
    have hpx : p x = true := hx x (List.mem_cons_self x xs)
    simp [List.cons_append, List.takeWhile_cons, hpx,
      takeWhile_append_all xs ys (fun a ha => hx a (List.mem_cons_of_mem _ ha)) hy]

theorem dropWhile_append_all {p : Char → Bool} :
    ∀ (xs ys : List Char), (∀ x ∈ xs, p x = true) → headNot p ys →
      (xs ++ ys).dropWhile p = ys
  | [], ys, _, hy => by
    cases ys with
    | nil => rfl
    | cons c cs =>
      have hc : p c = false := hy
      simp [List.dropWhile_cons, hc]
  | x :: xs, ys, hx, hy => by
    have hpx : p x = true := hx x (List.mem_cons_self x xs)
    simp only [List.cons_append, List.dropWhile_cons, hpx]
    exact dropWhile_append_all xs ys (fun a ha => hx a (List.mem_cons_of_mem _ ha)) hy

theorem dropWs_append (xs ys : List Char) (hxs : ∀ x ∈ xs, isWsChar x = true)
    (hy : headNot isWsChar ys) : dropWs (xs ++ ys) = ys :=
  dropWhile_append_all xs ys hxs hy

theorem wsCount_append (xs ys : List Char) (hxs : ∀ x ∈ xs, isWsChar x = true)
    (hy : headNot isWsChar ys) : wsCount (xs ++ ys) = xs.length := by
  unfold wsCount
  rw [takeWhile_append_all xs ys hxs hy]

theorem dropWs_notWs (ys : List Char) (hy : headNot isWsChar ys) : dropWs ys = ys := by
  have := dropWs_append [] ys (by simp) hy
  simpa using this

theorem wsCount_notWs (ys : List Char) (hy : headNot isWsChar ys) : wsCount ys = 0 := by
  have := wsCount_append [] ys (by simp) hy
  simpa using this

theorem wsCount_le (cs : List Char) : wsCount cs ≤ cs.length := by
  unfold wsCount
  simpa using List.Sublist.length_le (List.takeWhile_sublist _)

theorem suffix_eq_drop {l' l : List Char} (h : l' <:+ l) :
    l' = l.drop (l.length - l'.length) := by
  obtain ⟨t, rfl⟩ := h
  rw [List.length_append, Nat.add_sub_cancel, List.drop_left]

/-! ### Character class facts -/

theorem ws_not_identChar {c : Char} (h : isWsChar c = true) : isIdentChar c = false := by
  unfold isWsChar at h
  simp only [Bool.or_eq_true, decide_eq_true_eq] at h
  rcases h with ((rfl | rfl) | rfl) | rfl <;> decide

theorem identChar_not_ws {c : Char} (h : isIdentChar c = true) : isWsChar c = false := by
  by_cases hw : isWsChar c = true
  · rw [ws_not_identChar hw] at h
    exact absurd h (by decide)
  · exact Bool.eq_false_iff.mpr hw

theorem identChar_ne {c x : Char} (h : isIdentChar c = true) (hx : isIdentChar x = false) :
    c ≠ x := by
  intro heq
  rw [heq, hx] at h
  exact absurd h (by decide)

theorem isIdentStart_isIdentChar {c : Char} (h : isIdentStart c = true) :
    isIdentChar c = true := by
  unfold isIdentChar
  rw [h]
  rfl

/-! ### Keyword matching -/

theorem matchKeyword_cons (k : Char) (kw : List Char) (x : Char) (ys : List Char) :
    matchKeyword (k :: kw) (x :: ys) = if k = x then matchKeyword kw ys else none := by
  by_cases h : k = x
  · subst h
    rw [if_pos rfl]
    have hpre : (k :: kw).isPrefixOf (k :: ys) = kw.isPrefixOf ys := by
      simp [List.isPrefixOf]
    unfold matchKeyword
    rw [hpre]
    simp only [List.length_cons, List.drop_succ_cons]
  · rw [if_neg h]
    have hpre : (k :: kw).isPrefixOf (x :: ys) = false := by
      simp [List.isPrefixOf]
      intro hkx
      exact absurd hkx h
    unfold matchKeyword
    rw [hpre]
    simp

theorem matchKeyword_self (kw rest : List Char) (h : headNot isIdentChar rest) :
    matchKeyword kw (kw ++ rest) = some rest := by
  induction kw with
  | nil =>
    cases rest with
    | nil => rfl
    | cons c cs =>
      have hc : isIdentChar c = false := h
      have hstep : matchKeyword [] ([] ++ c :: cs) =
          if isIdentChar c = true then none else some (c :: cs) := rfl
      rw [hstep, hc]
      simp
  | cons k kw ih =>
    rw [List.cons_append, matchKeyword_cons, if_pos rfl]
    exact ih

theorem matchKeyword_eq_some {kw cs rest : List Char}
    (h : matchKeyword kw cs = some rest) :
    rest = cs.drop kw.length ∧ kw.length ≤ cs.length := by
  unfold matchKeyword at h
  split_ifs at h with hpre
  · have hlen : kw.length ≤ cs.length :=
      (List.isPrefixOf_iff_prefix.mp hpre).length_le
    refine ⟨?_, hlen⟩
    cases hd : cs.drop kw.length with
    | nil =>
      rw [hd] at h
      have h' : some ([] : List Char) = some rest := h
      injection h' with h''
      exact h''.symm
    | cons c cs' =>
      rw [hd] at h
      have h' : (if isIdentChar c = true then none else some (c :: cs')) = some rest := h
      by_cases hic : isIdentChar c = true
      · rw [if_pos hic] at h'
        exact absurd h' (by simp)
      · rw [if_neg hic] at h'
        injection h' with h''
        exact h''.symm

theorem matchKeyword_suffix {kw cs rest : List Char}
    (h : matchKeyword kw cs = some rest) : rest <:+ cs := by
  obtain ⟨rfl, -⟩ := matchKeyword_eq_some h
  exact List.drop_suffix _ _

/-- If a keyword matches at the start of an identifier followed by a word
boundary, the keyword is the whole identifier. -/
theorem keyword_no_match :
    ∀ (kw xs rest : List Char), (∀ c ∈ kw, isIdentChar c = true) →
      (∀ c ∈ xs, isIdentChar c = true) → headNot isIdentChar rest →
      ∀ r, matchKeyword kw (xs ++ rest) = some r → kw = xs
  | [], xs, rest, _, hxs, _, r, hm => by
    cases xs with
    | nil => rfl
    | cons x xs' =>
      exfalso
      have hm' : (if isIdentChar x = true then none else some (x :: (xs' ++ rest))) =
          some r := hm
      rw [hxs x (List.mem_cons_self x xs')] at hm'
      simp at hm'
  | k :: kw, [], rest, hkw, _, hrest, r, hm => by
    exfalso
    simp only [List.nil_append] at hm
    cases rest with
    | nil =>
      have hm' : (none : Option (List Char)) = some r := hm
      exact Option.noConfusion hm'
    | cons c cs =>
      rw [matchKeyword_cons] at hm
      split_ifs at hm with hkc
      subst hkc
      have hfalse : isIdentChar k = false := hrest
      rw [hkw k (List.mem_cons_self k kw)] at hfalse
      exact Bool.noConfusion hfalse
  | k :: kw, x :: xs, rest, hkw, hxs, hrest, r, hm => by
    rw [List.cons_append, matchKeyword_cons] at hm
    split_ifs at hm with hkx
    subst hkx
    rw [keyword_no_match kw xs rest (fun c hc => hkw c (List.mem_cons_of_mem _ hc))
      (fun c hc => hxs c (List.mem_cons_of_mem _ hc)) hrest r hm]

theorem wfIdent_all {s : String} (hs : wfIdent s) : ∀ x ∈ s.data, isIdentChar x = true := by
  obtain ⟨d⟩ := s
  cases d with
  | nil => exact hs.elim
  | cons c tok =>
    obtain ⟨h1, h2, -⟩ := hs
    intro x hx
    rcases List.mem_cons.mp hx with rfl | hx
    · exact isIdentStart_isIdentChar h1
    · exact h2 x hx

/-- An identifier with a word boundary after it never matches a keyword. -/
theorem matchKeyword_wfIdent {kw : List Char} {s : String} {rest : List Char}
    (hkw : ∀ c ∈ kw, isIdentChar c = true) (hkey : String.mk kw ∈ keywords)
    (hs : wfIdent s) (hrest : headNot isIdentChar rest) :
    matchKeyword kw (s.data ++ rest) = none := by
  cases hm : matchKeyword kw (s.data ++ rest) with
  | none => rfl
  | some r =>
    exfalso
    have hkweq : kw = s.data :=
      keyword_no_match kw s.data rest hkw (wfIdent_all hs) hrest r hm
    have hks : String.mk kw = s := by
      rw [hkweq]
    rw [hks] at hkey
    obtain ⟨d⟩ := s
    cases d with
    | nil => exact hs.elim
    | cons c tok =>
      obtain ⟨-, -, h3⟩ := hs
      simp at h3
      exact h3 hkey

/-! ### Identifier and string-literal parsing -/

theorem parseIdent_roundtrip {s : String} {rest : List Char}
    (hs : wfIdent s) (hr : headNot isIdentChar rest) :
    parseIdent (s.data ++ rest) = some (s, rest) := by
  have hall := wfIdent_all hs
  obtain ⟨d⟩ := s
  cases d with
  | nil => exact hs.elim
  | cons c tok =>
    obtain ⟨h1, h2, h3⟩ := hs
    show parseIdent ((c :: tok) ++ rest) = some (String.mk (c :: tok), rest)
    unfold parseIdent
    rw [takeWhile_append_all (c :: tok) rest hall hr]
    show (if isIdentStart c && !(keywords.contains (String.mk (c :: tok))) then
        some (String.mk (c :: tok), ((c :: tok) ++ rest).drop (c :: tok).length)
      else none) = some (String.mk (c :: tok), rest)
    rw [h1, h3]
    simp only [Bool.not_false, Bool.and_true, if_true]
    rw [List.drop_left]

theorem parseIdent_wf {cs : List Char} {s : String} {rest : List Char}
    (h : parseIdent cs = some (s, rest)) : wfIdent s := by
  unfold parseIdent at h
  cases htw : cs.takeWhile isIdentChar with
  | nil =>
    rw [htw] at h
    exact absurd h (by simp)
  | cons c tok =>
    rw [htw] at h
    have h' : (if isIdentStart c && !(keywords.contains (String.mk (c :: tok))) then
        some (String.mk (c :: tok), cs.drop (c :: tok).length)
      else none) = some (s, rest) := h
    split_ifs at h' with hcond
    injection h' with h''
    rw [Prod.mk.injEq] at h''
    obtain ⟨rfl, -⟩ := h''
    simp only [Bool.and_eq_true] at hcond
    obtain ⟨hstart, hnc⟩ := hcond
    show isIdentStart c = true ∧ (∀ x ∈ tok, isIdentChar x = true) ∧
      keywords.contains (String.mk (c :: tok)) = false
    refine ⟨hstart, ?_, by simpa using hnc⟩
    intro x hx
    exact List.mem_takeWhile_imp (htw ▸ List.mem_cons_of_mem c hx)

theorem parseIdent_suffix {cs : List Char} {s : String} {rest : List Char}
    (h : parseIdent cs = some (s, rest)) : rest <:+ cs ∧ rest.length < cs.length := by
  unfold parseIdent at h
  cases htw : cs.takeWhile isIdentChar with
  | nil =>
    rw [htw] at h
    exact absurd h (by simp)
  | cons c tok =>
    rw [htw] at h
    have h' : (if isIdentStart c && !(keywords.contains (String.mk (c :: tok))) then
        some (String.mk (c :: tok), cs.drop (c :: tok).length)
      else none) = some (s, rest) := h
    split_ifs at h' with hcond
    injection h' with h''
    rw [Prod.mk.injEq] at h''
    obtain ⟨-, rfl⟩ := h''
    have hne : cs ≠ [] := by
      intro hnil
      rw [hnil] at htw
      exact List.noConfusion htw
    have hlen : (c :: tok).length ≤ cs.length := by
      have := List.Sublist.length_le (List.takeWhile_sublist (l := cs) (p := isIdentChar))
      rw [htw] at this
      exact this
    constructor
    · exact List.drop_suffix _ _
    · rw [List.length_drop]
      have hpos : 0 < cs.length := List.length_pos.mpr hne
      simp only [List.length_cons] at hlen ⊢
      omega

theorem parseStringLit_step (q : Char) (rest0 : List Char) :
    parseStringLit (q :: rest0) =
      (if q = '"' || q = '\'' then
        match rest0.drop ((rest0.takeWhile (fun c => !(isPathStop c))).length) with
        | c :: rest' =>
          if c = q then some (String.mk (rest0.takeWhile (fun c => !(isPathStop c))), rest')
          else none
        | [] => none
      else none) := rfl

theorem parseStringLit_roundtrip {path : String} {rest : List Char} (hp : wfPath path) :
    parseStringLit ('"' :: (path.data ++ '"' :: rest)) = some (path, rest) := by
  rw [parseStringLit_step]
  have htw : (path.data ++ '"' :: rest).takeWhile (fun c => !(isPathStop c)) = path.data := by
    refine takeWhile_append_all path.data ('"' :: rest) ?_ ?_
    · intro x hx
      rw [hp x hx]
      rfl
    · show (!(isPathStop '"')) = false
      decide
  rw [if_pos (by simp), htw, List.drop_left]
  show (if ('"' : Char) = '"' then some (String.mk path.data, rest) else none) = some (path, rest)
  rw [if_pos rfl]

theorem parseStringLit_some {cs : List Char} {s : String} {rest : List Char}
    (h : parseStringLit cs = some (s, rest)) :
    wfPath s ∧ rest <:+ cs ∧ rest.length < cs.length := by
  cases cs with
  | nil => exact absurd h (by simp [parseStringLit])
  | cons q rest0 =>
    rw [parseStringLit_step] at h
    split_ifs at h with hq
    cases hd : rest0.drop ((rest0.takeWhile (fun c => !(isPathStop c))).length) with
    | nil =>
      rw [hd] at h
      exact absurd h (by simp)
    | cons c rest' =>
      rw [hd] at h
      have h' : (if c = q then
          some (String.mk (rest0.takeWhile (fun c => !(isPathStop c))), rest')
        else none) = some (s, rest) := h
      split_ifs at h' with hcq
      injection h' with h''
      rw [Prod.mk.injEq] at h''
      obtain ⟨rfl, rfl⟩ := h''
      refine ⟨?_, ?_, ?_⟩
      · intro x hx
        have := List.mem_takeWhile_imp hx
        simpa using this
      · have h1 : rest' <:+ c :: rest' := List.suffix_cons c rest'
        have h2 : c :: rest' <:+ rest0 := hd ▸ List.drop_suffix _ _
        exact (h1.trans h2).trans (List.suffix_cons q rest0)
      · have h2 : c :: rest' <:+ rest0 := hd ▸ List.drop_suffix _ _
        have := h2.length_le
        simp only [List.length_cons] at this ⊢
        omega

theorem parseSemi_suffix (cs : List Char) : parseSemi cs <:+ cs := by
  unfold parseSemi
  split
  · next rest heq =>
      have h1 : rest <:+ ';' :: rest := List.suffix_cons ';' rest
      rw [← heq] at h1
      exact h1.trans (List.dropWhile_suffix isWsChar)
  · exact List.suffix_refl cs

/-! ### Specifier parsing -/

theorem data_append (a b : String) : (a ++ b).data = a.data ++ b.data := rfl

theorem headNot_of_stop (rest ts : List Char)
    (hr : dropWs rest = ',' :: ts ∨ dropWs rest = '\x7d' :: ts) :
    headNot isIdentChar rest := by
  cases rest with
  | nil => trivial
  | cons c cs =>
    show isIdentChar c = false
    by_cases hw : isWsChar c = true
    · exact ws_not_identChar hw
    · have hdw : dropWs (c :: cs) = c :: cs := by
        unfold dropWs
        rw [List.dropWhile_cons, if_neg hw]
      rcases hr with h | h <;> rw [hdw] at h <;> injection h with h1 h2 <;>
        subst h1 <;> decide

theorem wfIdent_cons {s : String} (hs : wfIdent s) :
    ∃ c t, s.data = c :: t ∧ isIdentStart c = true := by
  obtain ⟨d⟩ := s
  cases d with
  | nil => exact hs.elim
  | cons c tok =>
    obtain ⟨h1, -, -⟩ := hs
    exact ⟨c, tok, rfl, h1⟩

theorem wfIdent_headNotWs {s : String} (hs : wfIdent s) (X : List Char) :
    headNot isWsChar (s.data ++ X) := by
  obtain ⟨c, t, hd, hc⟩ := wfIdent_cons hs
  rw [hd]
  show isWsChar c = false
  exact identChar_not_ws (isIdentStart_isIdentChar hc)

theorem parseSpecifierCore_name {isType : Bool} {name : String} {rest ts : List Char}
    (hname : wfIdent name) (hr : dropWs rest = ',' :: ts ∨ dropWs rest = '\x7d' :: ts) :
    parseSpecifierCore isType (name.data ++ rest) =
      some ({ isTypeOnly := isType, propertyName := none, name := name }, rest) := by
  have hrni := headNot_of_stop rest ts hr
  unfold parseSpecifierCore
  rw [parseIdent_roundtrip hname hrni]
  show (match matchKeyword "as".data (dropWs rest) with
    | some rest1 =>
      match parseIdent (dropWs rest1) with
      | none => none
      | some (n2, cs4) =>
        some (({ isTypeOnly := isType, propertyName := some name, name := n2 } :
          ImportSpecifier), cs4)
    | none => some (({ isTypeOnly := isType, propertyName := none, name := name } :
        ImportSpecifier), rest)) =
    some ({ isTypeOnly := isType, propertyName := none, name := name }, rest)
  have hmas : matchKeyword "as".data (dropWs rest) = none := by
    rcases hr with h | h <;> rw [h] <;>
      rw [show ("as".data : List Char) = 'a' :: 's' :: [] from rfl, matchKeyword_cons] <;>
      rw [if_neg (by decide)]
  rw [hmas]

theorem parseSpecifierCore_alias {isType : Bool} {p name : String} {rest ts : List Char}
    (hp : wfIdent p) (hname : wfIdent name)
    (hr : dropWs rest = ',' :: ts ∨ dropWs rest = '\x7d' :: ts) :
    parseSpecifierCore isType ((p ++ " as " ++ name).data ++ rest) =
      some ({ isTypeOnly := isType, propertyName := some p, name := name }, rest) := by
  have hrni := headNot_of_stop rest ts hr
  have hdata : (p ++ " as " ++ name).data ++ rest =
      p.data ++ (' ' :: 'a' :: 's' :: ' ' :: (name.data ++ rest)) := by
    rw [data_append, data_append]
    simp [List.append_assoc]
  rw [hdata]
  unfold parseSpecifierCore
  rw [parseIdent_roundtrip hp (by trivial)]
  show (match matchKeyword "as".data
        (dropWs (' ' :: 'a' :: 's' :: ' ' :: (name.data ++ rest))) with
    | some rest1 =>
      match parseIdent (dropWs rest1) with
      | none => none
      | some (n2, cs4) =>
        some (({ isTypeOnly := isType, propertyName := some p, name := n2 } :
          ImportSpecifier), cs4)
    | none => some (({ isTypeOnly := isType, propertyName := none, name := p } :
        ImportSpecifier), ' ' :: 'a' :: 's' :: ' ' :: (name.data ++ rest))) =
    some ({ isTypeOnly := isType, propertyName := some p, name := name }, rest)
  have hdw1 : dropWs (' ' :: 'a' :: 's' :: ' ' :: (name.data ++ rest)) =
      'a' :: 's' :: ' ' :: (name.data ++ rest) := by
    unfold dropWs
    rw [List.dropWhile_cons, if_pos (by decide), List.dropWhile_cons, if_neg (by decide)]
  rw [hdw1]
  have hmas : matchKeyword "as".data ('a' :: 's' :: ' ' :: (name.data ++ rest)) =
      some (' ' :: (name.data ++ rest)) := by
    have : ('a' :: 's' :: ' ' :: (name.data ++ rest)) =
        "as".data ++ (' ' :: (name.data ++ rest)) := rfl
    rw [this]
    exact matchKeyword_self _ _ (by trivial)
  rw [hmas]
  show (match parseIdent (dropWs (' ' :: (name.data ++ rest))) with
    | none => none
    | some (n2, cs4) =>
      some (({ isTypeOnly := isType, propertyName := some p, name := n2 } :
        ImportSpecifier), cs4)) =
    some ({ isTypeOnly := isType, propertyName := some p, name := name }, rest)
  have hdw2 : dropWs (' ' :: (name.data ++ rest)) = name.data ++ rest := by
    unfold dropWs
    rw [List.dropWhile_cons, if_pos (by decide)]
    exact dropWs_notWs _ (wfIdent_headNotWs hname rest)
  rw [hdw2, parseIdent_roundtrip hname hrni]

theorem parseSpecifier_roundtrip {s : ImportSpecifier} {rest ts : List Char}
    (hs : wfSpec s) (hr : dropWs rest = ',' :: ts ∨ dropWs rest = '\x7d' :: ts) :
    parseSpecifier ((printSpecifier s).data ++ rest) = some (s, rest) := by
  obtain ⟨hname, hprop⟩ := hs
  obtain ⟨isT, propN, name⟩ := s
  have hkwchars : ∀ c ∈ ("type".data : List Char), isIdentChar c = true := by decide
  have hkey : String.mk "type".data ∈ keywords := by decide
  cases isT with
  | true =>
    cases propN with
    | none =>
      have hdata : (printSpecifier ⟨true, none, name⟩).data ++ rest =
          "type".data ++ (' ' :: (name.data ++ rest)) := by
        show ("type " ++ name).data ++ rest = _
        rw [data_append]
        rfl
      rw [hdata]
      unfold parseSpecifier
      rw [matchKeyword_self "type".data (' ' :: (name.data ++ rest)) (by trivial)]
      show parseSpecifierCore true (dropWs (' ' :: (name.data ++ rest))) = _
      have hdw : dropWs (' ' :: (name.data ++ rest)) = name.data ++ rest := by
        unfold dropWs
        rw [List.dropWhile_cons, if_pos (by decide)]
        exact dropWs_notWs _ (wfIdent_headNotWs hname rest)
      rw [hdw]
      exact parseSpecifierCore_name hname hr
    | some p =>
      have hp : wfIdent p := hprop p rfl
      have hdata : (printSpecifier ⟨true, some p, name⟩).data ++ rest =
          "type".data ++ (' ' :: ((p ++ " as " ++ name).data ++ rest)) := by
        show ("type " ++ (p ++ " as " ++ name)).data ++ rest = _
        rw [data_append]
        rfl
      rw [hdata]
      unfold parseSpecifier
      rw [matchKeyword_self "type".data (' ' :: ((p ++ " as " ++ name).data ++ rest))
        (by trivial)]
      show parseSpecifierCore true (dropWs (' ' :: ((p ++ " as " ++ name).data ++ rest))) = _
      have hdw : dropWs (' ' :: ((p ++ " as " ++ name).data ++ rest)) =
          (p ++ " as " ++ name).data ++ rest := by
        unfold dropWs
        rw [List.dropWhile_cons, if_pos (by decide)]
        refine dropWs_notWs _ ?_
        rw [data_append, data_append, List.append_assoc, List.append_assoc]
        exact wfIdent_headNotWs hp _
      rw [hdw]
      exact parseSpecifierCore_alias hp hname hr
  | false =>
    cases propN with
    | none =>
      have hdata : (printSpecifier ⟨false, none, name⟩).data ++ rest =
          name.data ++ rest := by
        show ("" ++ name).data ++ rest = _
        rw [data_append]
        rfl
      rw [hdata]
      unfold parseSpecifier
      rw [matchKeyword_wfIdent hkwchars hkey hname (headNot_of_stop rest ts hr)]
      exact parseSpecifierCore_name hname hr
    | some p =>
      have hp : wfIdent p := hprop p rfl
      have hdata : (printSpecifier ⟨false, some p, name⟩).data ++ rest =
          p.data ++ (" as ".data ++ name.data ++ rest) := by
        show ("" ++ (p ++ " as " ++ name)).data ++ rest = _
        rw [show ("" ++ (p ++ " as " ++ name)) = p ++ " as " ++ name from by
          cases p; rfl]
        rw [data_append, data_append]
        simp [List.append_assoc]
      rw [hdata]
      unfold parseSpecifier
      rw [matchKeyword_wfIdent hkwchars hkey hp (by trivial)]
      have hback : p.data ++ (" as ".data ++ name.data ++ rest) =
          (p ++ " as " ++ name).data ++ rest := by
        rw [data_append, data_append]
        simp [List.append_assoc]
      rw [hback]
      exact parseSpecifierCore_alias hp hname hr

theorem headNot_cons {p : Char → Bool} {c : Char} (h : p c = false) (cs : List Char) :
    headNot p (c :: cs) := h

theorem parseSemi_semi (rest : List Char) : parseSemi (';' :: rest) = rest := by
  unfold parseSemi
  rw [dropWs_notWs _ (headNot_cons (by decide) _)]
  rfl

theorem printSpecifier_head {s : ImportSpecifier} (hs : wfSpec s) :
    ∃ c t, (printSpecifier s).data = c :: t ∧ isIdentChar c = true := by
  obtain ⟨hname, hprop⟩ := hs
  obtain ⟨isT, propN, name⟩ := s
  cases isT with
  | true =>
    cases propN with
    | none => exact ⟨'t', ("ype ".data ++ name.data), rfl, by decide⟩
    | some p => exact ⟨'t', ("ype ".data ++ (p ++ " as " ++ name).data), rfl, by decide⟩
  | false =>
    cases propN with
    | none =>
      obtain ⟨c, t, hd, hc⟩ := wfIdent_cons hname
      refine ⟨c, t, ?_, isIdentStart_isIdentChar hc⟩
      show ("" ++ name).data = c :: t
      rw [data_append]
      simpa using hd
    | some p =>
      obtain ⟨c, t, hd, hc⟩ := wfIdent_cons (hprop p rfl)
      refine ⟨c, t ++ (" as ".data ++ name.data), ?_, isIdentStart_isIdentChar hc⟩
      show ("" ++ (p ++ " as " ++ name)).data = _
      rw [data_append, data_append, data_append]
      rw [hd]
      simp

theorem printSpecifier_headNotWs {s : ImportSpecifier} (hs : wfSpec s) (X : List Char) :
    headNot isWsChar ((printSpecifier s).data ++ X) := by
  obtain ⟨c, t, hd, hc⟩ := printSpecifier_head hs
  rw [hd]
  exact headNot_cons (identChar_not_ws hc) _

theorem joinSep_cons₂ (sep : String) (x y : String) (t : List String) :
    joinSep sep (x :: y :: t) = x ++ sep ++ joinSep sep (y :: t) := rfl

theorem specsLen_le :
    ∀ es : List ImportSpecifier, (∀ s ∈ es, wfSpec s) → es ≠ [] →
      es.length ≤ (joinSep ", " (es.map printSpecifier)).data.length
  | [], _, hne => absurd rfl hne
  | [s], hwf, _ => by
    obtain ⟨c, t, hd, -⟩ := printSpecifier_head (hwf s (by simp))
    show 1 ≤ (printSpecifier s).data.length
    rw [hd]
    simp
  | s :: s2 :: t, hwf, _ => by
    have ih := specsLen_le (s2 :: t) (fun x hx => hwf x (List.mem_cons_of_mem _ hx))
      (by simp)
    rw [List.map_cons] at ih
    obtain ⟨c, u, hd, -⟩ := printSpecifier_head (hwf s (by simp))
    show (s :: s2 :: t).length ≤ (joinSep ", " (printSpecifier s :: (s2 :: t).map printSpecifier)).data.length
    rw [List.map_cons, joinSep_cons₂, data_append, data_append, hd]
    simp only [List.length_append, List.length_cons]
    simp only [List.length_cons] at ih
    have : (", " : String).data.length = 2 := rfl
    omega

theorem parseSpecList_roundtrip :
    ∀ (es : List ImportSpecifier) (fuel : Nat) (rest : List Char),
      es ≠ [] → (∀ s ∈ es, wfSpec s) → es.length ≤ fuel →
      parseSpecList fuel
          ((joinSep ", " (es.map printSpecifier)).data ++ (' ' :: '\x7d' :: rest)) =
        some (es, rest)
  | [], _, _, hne, _, _ => absurd rfl hne
  | [s], fuel, rest, _, hwf, hfuel => by
    have hs : wfSpec s := hwf s (by simp)
    cases fuel with
    | zero => exact absurd hfuel (by simp)
    | succ f =>
      show parseSpecList (f + 1) ((printSpecifier s).data ++ (' ' :: '\x7d' :: rest)) =
        some ([s], rest)
      unfold parseSpecList
      rw [dropWs_notWs _ (printSpecifier_headNotWs hs _)]
      have hstop : dropWs (' ' :: '\x7d' :: rest) = '\x7d' :: rest := by
        unfold dropWs
        rw [List.dropWhile_cons, if_pos (by decide), List.dropWhile_cons, if_neg (by decide)]
      rw [parseSpecifier_roundtrip hs (Or.inr hstop)]
      show (match dropWs (' ' :: '\x7d' :: rest) with
        | '\x7d' :: rest' => some ([s], rest')
        | ',' :: rest' =>
          match dropWs rest' with
          | '\x7d' :: rest'' => some ([s], rest'')
          | cs2 =>
            match parseSpecList f cs2 with
            | some (ss, csf) => some (s :: ss, csf)
            | none => none
        | _ => none) = some ([s], rest)
      rw [hstop]
      rfl
  | s :: s2 :: t, fuel, rest, _, hwf, hfuel => by
    have hs : wfSpec s := hwf s (by simp)
    have hwf' : ∀ x ∈ s2 :: t, wfSpec x := fun x hx => hwf x (List.mem_cons_of_mem _ hx)
    cases fuel with
    | zero => exact absurd hfuel (by simp)
    | succ f =>
      have hdata : (joinSep ", " ((s :: s2 :: t).map printSpecifier)).data ++
          (' ' :: '\x7d' :: rest) =
          (printSpecifier s).data ++
            (',' :: ' ' :: ((joinSep ", " ((s2 :: t).map printSpecifier)).data ++
              (' ' :: '\x7d' :: rest))) := by
        show (joinSep ", " (printSpecifier s :: (s2 :: t).map printSpecifier)).data ++ _ = _
        rw [List.map_cons, joinSep_cons₂, data_append, data_append]
        simp [List.append_assoc]
      rw [hdata]
      unfold parseSpecList
      rw [dropWs_notWs _ (printSpecifier_headNotWs hs _)]
      rw [parseSpecifier_roundtrip hs
        (Or.inl (dropWs_notWs _ (headNot_cons (by decide) _)))]
      show (match dropWs (',' :: ' ' :: ((joinSep ", " ((s2 :: t).map printSpecifier)).data ++
          (' ' :: '\x7d' :: rest))) with
        | '\x7d' :: rest' => some ([s], rest')
        | ',' :: rest' =>
          match dropWs rest' with
          | '\x7d' :: rest'' => some ([s], rest'')
          | cs2 =>
            match parseSpecList f cs2 with
            | some (ss, csf) => some (s :: ss, csf)
            | none => none
        | _ => none) = some (s :: s2 :: t, rest)
      rw [dropWs_notWs _ (headNot_cons (by decide) _)]
      show (match dropWs (' ' :: ((joinSep ", " ((s2 :: t).map printSpecifier)).data ++
          (' ' :: '\x7d' :: rest))) with
        | '\x7d' :: rest'' => some ([s], rest'')
        | cs2 =>
          match parseSpecList f cs2 with
          | some (ss, csf) => some (s :: ss, csf)
          | none => none) = some (s :: s2 :: t, rest)
      obtain ⟨c2, t2, hd2, hc2⟩ := printSpecifier_head (hwf' s2 (by simp))
      obtain ⟨Z, hZ⟩ : ∃ Z, (joinSep ", " ((s2 :: t).map printSpecifier)).data ++
          (' ' :: '\x7d' :: rest) = (printSpecifier s2).data ++ Z := by
        cases t with
        | nil => exact ⟨' ' :: '\x7d' :: rest, rfl⟩
        | cons s3 t' =>
          refine ⟨", ".data ++ ((joinSep ", " ((s3 :: t').map printSpecifier)).data ++
            (' ' :: '\x7d' :: rest)), ?_⟩
          show (joinSep ", " (printSpecifier s2 :: (s3 :: t').map printSpecifier)).data ++ _ = _
          rw [List.map_cons, joinSep_cons₂, data_append, data_append]
          simp [List.append_assoc]
      have hdw : dropWs (' ' :: ((joinSep ", " ((s2 :: t).map printSpecifier)).data ++
          (' ' :: '\x7d' :: rest))) = (printSpecifier s2).data ++ Z := by
        unfold dropWs
        rw [List.dropWhile_cons, if_pos (by decide), hZ]
        exact dropWs_notWs _ (printSpecifier_headNotWs (hwf' s2 (by simp)) _)
      rw [hdw, hd2]
      split
      · next rest'' heq =>
          rw [List.cons_append] at heq
          injection heq with heq1 heq2
          rw [heq1] at hc2
          exact absurd hc2 (by decide)
      · next cs2 hne2 =>
          have hback : c2 :: t2 ++ Z = (printSpecifier s2).data ++ Z := by
            rw [hd2, List.cons_append]
          rw [hback, ← hZ]
          rw [parseSpecList_roundtrip (s2 :: t) f rest (by simp) hwf'
            (by simp only [List.length_cons] at hfuel ⊢; omega)]

theorem parseNamedImports_roundtrip {es : List ImportSpecifier} {rest : List Char}
    (hwf : ∀ s ∈ es, wfSpec s) :
    parseNamedImports ((printNamedBindings (.named es)).data ++ rest) = some (es, rest) := by
  cases es with
  | nil =>
    show parseNamedImports ('\x7b' :: '\x7d' :: rest) = some ([], rest)
    unfold parseNamedImports
    show (match dropWs ('\x7d' :: rest) with
      | '\x7d' :: rest' => some ([], rest')
      | cs' => parseSpecList cs'.length cs') = some ([], rest)
    rw [dropWs_notWs _ (headNot_cons (by decide) _)]
    rfl
  | cons s es' =>
    have hdata : (printNamedBindings (.named (s :: es'))).data ++ rest =
        '\x7b' :: (' ' :: ((joinSep ", " ((s :: es').map printSpecifier)).data ++
          (' ' :: '\x7d' :: rest))) := by
      show ("\x7b " ++ joinSep ", " ((s :: es').map printSpecifier) ++ " \x7d").data ++ rest = _
      rw [data_append, data_append]
      simp [List.append_assoc]
    rw [hdata]
    unfold parseNamedImports
    show (match dropWs (' ' :: ((joinSep ", " ((s :: es').map printSpecifier)).data ++
        (' ' :: '\x7d' :: rest))) with
      | '\x7d' :: rest' => some ([], rest')
      | cs' => parseSpecList cs'.length cs') = some (s :: es', rest)
    obtain ⟨c, tJ, hdJ, hcJ⟩ := printSpecifier_head (hwf s (by simp))
    obtain ⟨Z, hZ⟩ : ∃ Z, (joinSep ", " ((s :: es').map printSpecifier)).data ++
        (' ' :: '\x7d' :: rest) = (printSpecifier s).data ++ Z := by
      cases es' with
      | nil => exact ⟨' ' :: '\x7d' :: rest, rfl⟩
      | cons s2 t' =>
        refine ⟨", ".data ++ ((joinSep ", " ((s2 :: t').map printSpecifier)).data ++
          (' ' :: '\x7d' :: rest)), ?_⟩
        show (joinSep ", " (printSpecifier s :: (s2 :: t').map printSpecifier)).data ++ _ = _
        rw [List.map_cons, joinSep_cons₂, data_append, data_append]
        simp [List.append_assoc]
    have hdw : dropWs (' ' :: ((joinSep ", " ((s :: es').map printSpecifier)).data ++
        (' ' :: '\x7d' :: rest))) =
        (joinSep ", " ((s :: es').map printSpecifier)).data ++ (' ' :: '\x7d' :: rest) := by
      unfold dropWs
      rw [List.dropWhile_cons, if_pos (by decide), hZ]
      exact dropWs_notWs _ (printSpecifier_headNotWs (hwf s (by simp)) _)
    rw [hdw, hZ, hdJ]
    split
    · next rest' heq =>
        rw [List.cons_append] at heq
        injection heq with heq1 heq2
        rw [heq1] at hcJ
        exact absurd hcJ (by decide)
    · next cs' hne =>
        have hback : c :: tJ ++ Z = (printSpecifier s).data ++ Z := by
          rw [hdJ, List.cons_append]
        rw [hback, ← hZ]
        refine parseSpecList_roundtrip (s :: es') _ rest (by simp) hwf ?_
        have h1 := specsLen_le (s :: es') hwf (by simp)
        have h2 : ((joinSep ", " ((s :: es').map printSpecifier)).data ++
            (' ' :: '\x7d' :: rest)).length =
            (joinSep ", " ((s :: es').map printSpecifier)).data.length + (2 + rest.length) := by
          rw [List.length_append]
          simp
          omega
        omega

theorem parseBindings_roundtrip {nb : NamedBindings} {rest : List Char}
    (hwf : wfBindings nb) (hr : headNot isIdentChar rest) :
    parseBindings ((printNamedBindings nb).data ++ rest) = some (nb, rest) := by
  cases nb with
  | named es =>
    have hwf' : ∀ s ∈ es, wfSpec s := hwf
    cases es with
    | nil =>
      show (match parseNamedImports
          ((printNamedBindings (NamedBindings.named ([] : List ImportSpecifier))).data ++
            rest) with
        | some (es, r) => some (NamedBindings.named es, r)
        | none => none) = some (.named [], rest)
      rw [parseNamedImports_roundtrip hwf']
    | cons s t =>
      show (match parseNamedImports
          ((printNamedBindings (NamedBindings.named (s :: t))).data ++ rest) with
        | some (es, r) => some (NamedBindings.named es, r)
        | none => none) = some (.named (s :: t), rest)
      rw [parseNamedImports_roundtrip hwf']
  | namespaceImport n =>
    show parseBindings ('*' :: (' ' :: 'a' :: 's' :: ' ' :: (n.data ++ rest))) =
      some (.namespaceImport n, rest)
    unfold parseBindings
    show (match matchKeyword "as".data
        (dropWs (' ' :: 'a' :: 's' :: ' ' :: (n.data ++ rest))) with
      | none => none
      | some r2 =>
        match parseIdent (dropWs r2) with
        | none => none
        | some (nn, r3) => some (NamedBindings.namespaceImport nn, r3)) =
      some (.namespaceImport n, rest)
    have hdw1 : dropWs (' ' :: 'a' :: 's' :: ' ' :: (n.data ++ rest)) =
        'a' :: 's' :: ' ' :: (n.data ++ rest) := by
      unfold dropWs
      rw [List.dropWhile_cons, if_pos (by decide), List.dropWhile_cons, if_neg (by decide)]
    rw [hdw1]
    rw [show ('a' :: 's' :: ' ' :: (n.data ++ rest)) =
      "as".data ++ (' ' :: (n.data ++ rest)) from rfl]
    rw [matchKeyword_self _ _ (headNot_cons (by decide) _)]
    show (match parseIdent (dropWs (' ' :: (n.data ++ rest))) with
      | none => none
      | some (nn, r3) => some (NamedBindings.namespaceImport nn, r3)) =
      some (.namespaceImport n, rest)
    have hdw2 : dropWs (' ' :: (n.data ++ rest)) = n.data ++ rest := by
      unfold dropWs
      rw [List.dropWhile_cons, if_pos (by decide)]
      exact dropWs_notWs _ (wfIdent_headNotWs hwf rest)
    rw [hdw2, parseIdent_roundtrip hwf hr]

theorem printNamedBindings_head (nb : NamedBindings) :
    ∃ c t, (printNamedBindings nb).data = c :: t ∧ (c = '\x7b' ∨ c = '*') := by
  cases nb with
  | namespaceImport n => exact ⟨'*', _, rfl, Or.inr rfl⟩
  | named es =>
    cases es with
    | nil => exact ⟨'\x7b', _, rfl, Or.inl rfl⟩
    | cons s t => exact ⟨'\x7b', _, rfl, Or.inl rfl⟩

theorem parseClauseBody_roundtrip {nm : Option String} {nb : Option NamedBindings}
    {restf : List Char}
    (hnm : ∀ n, nm = some n → wfIdent n) (hnb : ∀ b, nb = some b → wfBindings b)
    (hshape : ¬(nm = none ∧ nb = none)) :
    parseClauseBody ((printClauseBody nm nb).data ++ (' ' :: 'f' :: restf)) =
      some (nm, nb, ' ' :: 'f' :: restf) := by
  cases nm with
  | some n =>
    have hn := hnm n rfl
    obtain ⟨c, t, hd, hc⟩ := wfIdent_cons hn
    cases nb with
    | none =>
      show parseClauseBody (n.data ++ (' ' :: 'f' :: restf)) =
        some (some n, none, ' ' :: 'f' :: restf)
      rw [hd, List.cons_append]
      unfold parseClauseBody
      split
      · rename_i cs1 heq
        exfalso
        injection heq with ha hb
        rw [ha] at hc
        exact absurd hc (by decide)
      · rename_i cs1 heq
        exfalso
        injection heq with ha hb
        rw [ha] at hc
        exact absurd hc (by decide)
      · have hback : c :: (t ++ (' ' :: 'f' :: restf)) = n.data ++ (' ' :: 'f' :: restf) := by
          rw [hd, List.cons_append]
        rw [hback, parseIdent_roundtrip hn (headNot_cons (by decide) _)]
        show (match dropWs (' ' :: 'f' :: restf) with
          | ',' :: rest2 =>
            match parseBindings (dropWs rest2) with
            | some (nb2, r) => some (some n, some nb2, r)
            | none => none
          | _ => some (some n, none, ' ' :: 'f' :: restf)) =
          some (some n, none, ' ' :: 'f' :: restf)
        have hdw : dropWs (' ' :: 'f' :: restf) = 'f' :: restf := by
          unfold dropWs
          rw [List.dropWhile_cons, if_pos (by decide), List.dropWhile_cons,
            if_neg (by decide)]
        rw [hdw]
        rfl
    | some b =>
      have hb := hnb b rfl
      have hdata : (printClauseBody (some n) (some b)).data ++ (' ' :: 'f' :: restf) =
          n.data ++ (',' :: ' ' :: ((printNamedBindings b).data ++ (' ' :: 'f' :: restf))) := by
        show (n ++ ", " ++ printNamedBindings b).data ++ _ = _
        rw [data_append, data_append]
        simp [List.append_assoc]
      rw [hdata, hd, List.cons_append]
      unfold parseClauseBody
      split
      · rename_i cs1 heq
        exfalso
        injection heq with ha hb
        rw [ha] at hc
        exact absurd hc (by decide)
      · rename_i cs1 heq
        exfalso
        injection heq with ha hb
        rw [ha] at hc
        exact absurd hc (by decide)
      · have hback : c :: (t ++ (',' :: ' ' ::
            ((printNamedBindings b).data ++ (' ' :: 'f' :: restf)))) =
            n.data ++ (',' :: ' ' ::
              ((printNamedBindings b).data ++ (' ' :: 'f' :: restf))) := by
          rw [hd, List.cons_append]
        rw [hback, parseIdent_roundtrip hn (headNot_cons (by decide) _)]
        show (match dropWs (',' :: ' ' ::
            ((printNamedBindings b).data ++ (' ' :: 'f' :: restf))) with
          | ',' :: rest2 =>
            match parseBindings (dropWs rest2) with
            | some (nb2, r) => some (some n, some nb2, r)
            | none => none
          | _ => some (some n, none, ',' :: ' ' ::
              ((printNamedBindings b).data ++ (' ' :: 'f' :: restf)))) =
          some (some n, some b, ' ' :: 'f' :: restf)
        rw [dropWs_notWs _ (headNot_cons (by decide) _)]
        show (match parseBindings (dropWs (' ' ::
            ((printNamedBindings b).data ++ (' ' :: 'f' :: restf)))) with
          | some (nb2, r) => some (some n, some nb2, r)
          | none => none) = some (some n, some b, ' ' :: 'f' :: restf)
        have hdw : dropWs (' ' :: ((printNamedBindings b).data ++ (' ' :: 'f' :: restf))) =
            (printNamedBindings b).data ++ (' ' :: 'f' :: restf) := by
          unfold dropWs
          rw [List.dropWhile_cons, if_pos (by decide)]
          obtain ⟨cb, tb, hdb, hcb⟩ := printNamedBindings_head b
          rw [hdb, List.cons_append]
          show List.dropWhile isWsChar (cb :: (tb ++ _)) = _
          rw [List.dropWhile_cons, if_neg (by rcases hcb with rfl | rfl <;> decide)]
        rw [hdw, parseBindings_roundtrip hb (headNot_cons (by decide) _)]
  | none =>
    cases nb with
    | none => exact absurd ⟨rfl, rfl⟩ hshape
    | some b =>
      have hb := hnb b rfl
      cases b with
      | namespaceImport n' =>
        show (match parseBindings
            ((printNamedBindings (NamedBindings.namespaceImport n')).data ++
              (' ' :: 'f' :: restf)) with
          | some (nb2, r) => some (none, some nb2, r)
          | none => none) = some (none, some (.namespaceImport n'), ' ' :: 'f' :: restf)
        rw [parseBindings_roundtrip hb (headNot_cons (by decide) _)]
      | named es =>
        cases es with
        | nil =>
          show (match parseBindings
              ((printNamedBindings (NamedBindings.named ([] : List ImportSpecifier))).data ++
                (' ' :: 'f' :: restf)) with
            | some (nb2, r) => some (none, some nb2, r)
            | none => none) = some (none, some (.named []), ' ' :: 'f' :: restf)
          rw [parseBindings_roundtrip hb (headNot_cons (by decide) _)]
        | cons s t =>
          show (match parseBindings
              ((printNamedBindings (NamedBindings.named (s :: t))).data ++
                (' ' :: 'f' :: restf)) with
            | some (nb2, r) => some (none, some nb2, r)
            | none => none) = some (none, some (.named (s :: t)), ' ' :: 'f' :: restf)
          rw [parseBindings_roundtrip hb (headNot_cons (by decide) _)]

theorem parseImportClause_roundtrip {isType : Bool} {nm : Option String}
    {nb : Option NamedBindings} {path : String} {rest : List Char}
    (hnm : ∀ n, nm = some n → wfIdent n) (hnb : ∀ b, nb = some b → wfBindings b)
    (hshape : ¬(nm = none ∧ nb = none)) (hpath : wfPath path) :
    parseImportClause isType ((printClauseBody nm nb).data ++
        (' ' :: 'f' :: 'r' :: 'o' :: 'm' :: ' ' :: '"' :: (path.data ++ '"' :: ';' :: rest))) =
      some ({ importClause := some ({ isTypeOnly := isType, name := nm, namedBindings := nb }),
              modulePath := path }, rest) := by
  unfold parseImportClause
  rw [parseClauseBody_roundtrip hnm hnb hshape]
  show (match matchKeyword "from".data (dropWs (' ' :: 'f' :: 'r' :: 'o' :: 'm' :: ' ' ::
      '"' :: (path.data ++ '"' :: ';' :: rest))) with
    | none => none
    | some cs5 =>
      match parseStringLit (dropWs cs5) with
      | none => none
      | some (path2, cs6) =>
        some (ImportDecl.mk (some (ImportClause.mk isType nm nb)) path2, parseSemi cs6)) =
    some (ImportDecl.mk (some (ImportClause.mk isType nm nb)) path, rest)
  have hdw : dropWs (' ' :: 'f' :: 'r' :: 'o' :: 'm' :: ' ' ::
      '"' :: (path.data ++ '"' :: ';' :: rest)) =
      'f' :: 'r' :: 'o' :: 'm' :: ' ' :: '"' :: (path.data ++ '"' :: ';' :: rest) := by
    unfold dropWs
    rw [List.dropWhile_cons, if_pos (by decide), List.dropWhile_cons, if_neg (by decide)]
  rw [hdw]
  rw [show ('f' :: 'r' :: 'o' :: 'm' :: ' ' :: '"' :: (path.data ++ '"' :: ';' :: rest)) =
    "from".data ++ (' ' :: '"' :: (path.data ++ '"' :: ';' :: rest)) from rfl]
  rw [matchKeyword_self _ _ (headNot_cons (by decide) _)]
  show (match parseStringLit (dropWs (' ' :: '"' :: (path.data ++ '"' :: ';' :: rest))) with
    | none => none
    | some (path2, cs6) =>
      some (ImportDecl.mk (some (ImportClause.mk isType nm nb)) path2, parseSemi cs6)) =
    some (ImportDecl.mk (some (ImportClause.mk isType nm nb)) path, rest)
  have hdw2 : dropWs (' ' :: '"' :: (path.data ++ '"' :: ';' :: rest)) =
      '"' :: (path.data ++ '"' :: ';' :: rest) := by
    unfold dropWs
    rw [List.dropWhile_cons, if_pos (by decide), List.dropWhile_cons, if_neg (by decide)]
  rw [hdw2, parseStringLit_roundtrip hpath]
  show some (ImportDecl.mk (some (ImportClause.mk isType nm nb)) path,
      parseSemi (';' :: rest)) =
    some (ImportDecl.mk (some (ImportClause.mk isType nm nb)) path, rest)
  rw [parseSemi_semi]

theorem printClauseBody_head {nm : Option String} {nb : Option NamedBindings}
    (hnm : ∀ n, nm = some n → wfIdent n)
    (hshape : ¬(nm = none ∧ nb = none)) :
    ∃ c t, (printClauseBody nm nb).data = c :: t ∧
      (isIdentStart c = true ∨ c = '\x7b' ∨ c = '*') := by
  cases nm with
  | some n =>
    obtain ⟨c, t, hd, hc⟩ := wfIdent_cons (hnm n rfl)
    cases nb with
    | none => exact ⟨c, t, hd, Or.inl hc⟩
    | some b =>
      refine ⟨c, t ++ (',' :: ' ' :: (printNamedBindings b).data), ?_, Or.inl hc⟩
      show (n ++ ", " ++ printNamedBindings b).data = _
      rw [data_append, data_append, hd]
      simp [List.append_assoc]
  | none =>
    cases nb with
    | none => exact absurd ⟨rfl, rfl⟩ hshape
    | some b =>
      obtain ⟨c, t, hd, hc⟩ := printNamedBindings_head b
      exact ⟨c, t, hd, Or.inr hc⟩

theorem printClauseBody_no_type_kw {nm : Option String} {nb : Option NamedBindings}
    (hnm : ∀ n, nm = some n → wfIdent n)
    (hshape : ¬(nm = none ∧ nb = none)) (S : List Char) (hS : headNot isIdentChar S) :
    matchKeyword "type".data ((printClauseBody nm nb).data ++ S) = none := by
  cases nm with
  | some n =>
    have hn := hnm n rfl
    cases nb with
    | none => exact matchKeyword_wfIdent (by decide) (by decide) hn hS
    | some b =>
      have hdata : (printClauseBody (some n) (some b)).data ++ S =
          n.data ++ (',' :: ' ' :: ((printNamedBindings b).data ++ S)) := by
        show (n ++ ", " ++ printNamedBindings b).data ++ S = _
        rw [data_append, data_append]
        simp [List.append_assoc]
      rw [hdata]
      exact matchKeyword_wfIdent (by decide) (by decide) hn (headNot_cons (by decide) _)
  | none =>
    cases nb with
    | none => exact absurd ⟨rfl, rfl⟩ hshape
    | some b =>
      obtain ⟨c, t, hd, hc⟩ := printNamedBindings_head b
      have hd2 : (printClauseBody none (some b)).data ++ S = c :: (t ++ S) := by
        show (printNamedBindings b).data ++ S = _
        rw [hd, List.cons_append]
      rw [hd2]
      rw [show ("type".data : List Char) = 't' :: ['y', 'p', 'e'] from rfl]
      rw [matchKeyword_cons, if_neg (by rcases hc with rfl | rfl <;> decide)]

theorem parseImport_print {d : ImportDecl} {rest : List Char} (hwf : wfDecl d) :
    parseImport ((printImport d).data ++ rest) = some (d, rest) := by
  obtain ⟨ic, path⟩ := d
  obtain ⟨hcl, hpath⟩ := hwf
  cases ic with
  | none =>
    have hdata : (printImport (ImportDecl.mk none path)).data ++ rest =
        "import".data ++ (' ' :: '"' :: (path.data ++ '"' :: ';' :: rest)) := by
      show (("import " : String) ++ (("\"" ++ path) ++ "\";")).data ++ rest = _
      rw [data_append, data_append, data_append]
      simp [List.append_assoc]
    rw [hdata]
    unfold parseImport
    rw [matchKeyword_self _ _ (headNot_cons (by decide) _)]
    show (match dropWs (' ' :: '"' :: (path.data ++ '"' :: ';' :: rest)) with
      | [] => none
      | c :: rest2 =>
        if c = '"' || c = '\'' then
          match parseStringLit (c :: rest2) with
          | none => none
          | some (p, cs3) => some (ImportDecl.mk none p, parseSemi cs3)
        else
          match matchKeyword "type".data (c :: rest2) with
          | some r => parseImportClause true (dropWs r)
          | none => parseImportClause false (c :: rest2)) =
      some (ImportDecl.mk none path, rest)
    have hdw : dropWs (' ' :: '"' :: (path.data ++ '"' :: ';' :: rest)) =
        '"' :: (path.data ++ '"' :: ';' :: rest) := by
      unfold dropWs
      rw [List.dropWhile_cons, if_pos (by decide), List.dropWhile_cons, if_neg (by decide)]
    rw [hdw]
    show (if ('"' : Char) = '"' || ('"' : Char) = '\'' then
        match parseStringLit ('"' :: (path.data ++ '"' :: ';' :: rest)) with
        | none => none
        | some (p, cs3) => some (ImportDecl.mk none p, parseSemi cs3)
      else
        match matchKeyword "type".data ('"' :: (path.data ++ '"' :: ';' :: rest)) with
        | some r => parseImportClause true (dropWs r)
        | none => parseImportClause false ('"' :: (path.data ++ '"' :: ';' :: rest))) =
      some (ImportDecl.mk none path, rest)
    rw [if_pos (by decide), parseStringLit_roundtrip hpath]
    show some (ImportDecl.mk none path, parseSemi (';' :: rest)) =
      some (ImportDecl.mk none path, rest)
    rw [parseSemi_semi]
  | some c =>
    obtain ⟨isType, nm, nb⟩ := c
    obtain ⟨hnm, hnb, hshape0⟩ := hcl _ rfl
    have hshape : ¬(nm = none ∧ nb = none) := by
      rintro ⟨h1, h2⟩
      rcases hshape0 with h | h
      · exact h h1
      · exact h h2
    obtain ⟨c0, t0, hB, hc0⟩ := printClauseBody_head hnm hshape
    have hBhead : headNot isWsChar ((printClauseBody nm nb).data ++
        (' ' :: 'f' :: 'r' :: 'o' :: 'm' :: ' ' :: '"' ::
          (path.data ++ '"' :: ';' :: rest))) := by
      rw [hB, List.cons_append]
      show isWsChar c0 = false
      rcases hc0 with h | rfl | rfl
      · exact identChar_not_ws (isIdentStart_isIdentChar h)
      · decide
      · decide
    cases isType with
    | false =>
      have hdata : (printImport
            (ImportDecl.mk (some (ImportClause.mk false nm nb)) path)).data ++ rest =
          "import".data ++ (' ' :: ((printClauseBody nm nb).data ++
            (' ' :: 'f' :: 'r' :: 'o' :: 'm' :: ' ' :: '"' ::
              (path.data ++ '"' :: ';' :: rest)))) := by
        show (("import " : String) ++
            (((("" ++ printClauseBody nm nb) ++ " from \"") ++ path) ++ "\";")).data ++
            rest = _
        rw [data_append, data_append, data_append, data_append, data_append]
        simp [List.append_assoc]
      rw [hdata]
      unfold parseImport
      rw [matchKeyword_self _ _ (headNot_cons (by decide) _)]
      show (match dropWs (' ' :: ((printClauseBody nm nb).data ++
          (' ' :: 'f' :: 'r' :: 'o' :: 'm' :: ' ' :: '"' ::
            (path.data ++ '"' :: ';' :: rest)))) with
        | [] => none
        | c :: rest2 =>
          if c = '"' || c = '\'' then
            match parseStringLit (c :: rest2) with
            | none => none
            | some (p, cs3) => some (ImportDecl.mk none p, parseSemi cs3)
          else
            match matchKeyword "type".data (c :: rest2) with
            | some r => parseImportClause true (dropWs r)
            | none => parseImportClause false (c :: rest2)) =
        some (ImportDecl.mk (some (ImportClause.mk false nm nb)) path, rest)
      have hdw : dropWs (' ' :: ((printClauseBody nm nb).data ++
          (' ' :: 'f' :: 'r' :: 'o' :: 'm' :: ' ' :: '"' ::
            (path.data ++ '"' :: ';' :: rest)))) =
          (printClauseBody nm nb).data ++
            (' ' :: 'f' :: 'r' :: 'o' :: 'm' :: ' ' :: '"' ::
              (path.data ++ '"' :: ';' :: rest)) := by
        unfold dropWs
        rw [List.dropWhile_cons, if_pos (by decide)]
        exact dropWs_notWs _ hBhead
      rw [hdw, hB, List.cons_append]
      show (if c0 = '"' || c0 = '\'' then
          match parseStringLit (c0 :: (t0 ++ (' ' :: 'f' :: 'r' :: 'o' :: 'm' :: ' ' :: '"' ::
            (path.data ++ '"' :: ';' :: rest)))) with
          | none => none
          | some (p, cs3) => some (ImportDecl.mk none p, parseSemi cs3)
        else
          match matchKeyword "type".data (c0 :: (t0 ++ (' ' :: 'f' :: 'r' :: 'o' :: 'm' ::
              ' ' :: '"' :: (path.data ++ '"' :: ';' :: rest)))) with
          | some r => parseImportClause true (dropWs r)
          | none => parseImportClause false (c0 :: (t0 ++ (' ' :: 'f' :: 'r' :: 'o' :: 'm' ::
              ' ' :: '"' :: (path.data ++ '"' :: ';' :: rest))))) =
        some (ImportDecl.mk (some (ImportClause.mk false nm nb)) path, rest)
      split_ifs with hq
      · exfalso
        simp only [Bool.or_eq_true, decide_eq_true_eq] at hq
        rcases hc0 with h | rfl | rfl
        · rcases hq with rfl | rfl
          · exact absurd h (by decide)
          · exact absurd h (by decide)
        · rcases hq with h | h <;> exact absurd h (by decide)
        · rcases hq with h | h <;> exact absurd h (by decide)
      · have hback : c0 :: (t0 ++ (' ' :: 'f' :: 'r' :: 'o' :: 'm' :: ' ' :: '"' ::
            (path.data ++ '"' :: ';' :: rest))) =
            (printClauseBody nm nb).data ++ (' ' :: 'f' :: 'r' :: 'o' :: 'm' :: ' ' :: '"' ::
              (path.data ++ '"' :: ';' :: rest)) := by
          rw [hB, List.cons_append]
        rw [hback, printClauseBody_no_type_kw hnm hshape _ (headNot_cons (by decide) _)]
        exact parseImportClause_roundtrip hnm hnb hshape hpath
    | true =>
      have hdata : (printImport
            (ImportDecl.mk (some (ImportClause.mk true nm nb)) path)).data ++ rest =
          "import".data ++ (' ' :: 't' :: 'y' :: 'p' :: 'e' :: ' ' ::
            ((printClauseBody nm nb).data ++
              (' ' :: 'f' :: 'r' :: 'o' :: 'm' :: ' ' :: '"' ::
                (path.data ++ '"' :: ';' :: rest)))) := by
        show (("import " : String) ++
            (((("type " ++ printClauseBody nm nb) ++ " from \"") ++ path) ++ "\";")).data ++
            rest = _
        rw [data_append, data_append, data_append, data_append, data_append]
        simp [List.append_assoc]
      rw [hdata]
      unfold parseImport
      rw [matchKeyword_self _ _ (headNot_cons (by decide) _)]
      show (match dropWs (' ' :: 't' :: 'y' :: 'p' :: 'e' :: ' ' ::
          ((printClauseBody nm nb).data ++
            (' ' :: 'f' :: 'r' :: 'o' :: 'm' :: ' ' :: '"' ::
              (path.data ++ '"' :: ';' :: rest)))) with
        | [] => none
        | c :: rest2 =>
          if c = '"' || c = '\'' then
            match parseStringLit (c :: rest2) with
            | none => none
            | some (p, cs3) => some (ImportDecl.mk none p, parseSemi cs3)
          else
            match matchKeyword "type".data (c :: rest2) with
            | some r => parseImportClause true (dropWs r)
            | none => parseImportClause false (c :: rest2)) =
        some (ImportDecl.mk (some (ImportClause.mk true nm nb)) path, rest)
      have hdw : dropWs (' ' :: 't' :: 'y' :: 'p' :: 'e' :: ' ' ::
          ((printClauseBody nm nb).data ++
            (' ' :: 'f' :: 'r' :: 'o' :: 'm' :: ' ' :: '"' ::
              (path.data ++ '"' :: ';' :: rest)))) =
          't' :: 'y' :: 'p' :: 'e' :: ' ' ::
            ((printClauseBody nm nb).data ++
              (' ' :: 'f' :: 'r' :: 'o' :: 'm' :: ' ' :: '"' ::
                (path.data ++ '"' :: ';' :: rest))) := by
        unfold dropWs
        rw [List.dropWhile_cons, if_pos (by decide), List.dropWhile_cons, if_neg (by decide)]
      rw [hdw]
      show (if ('t' : Char) = '"' || ('t' : Char) = '\'' then
          match parseStringLit ('t' :: 'y' :: 'p' :: 'e' :: ' ' ::
            ((printClauseBody nm nb).data ++
              (' ' :: 'f' :: 'r' :: 'o' :: 'm' :: ' ' :: '"' ::
                (path.data ++ '"' :: ';' :: rest)))) with
          | none => none
          | some (p, cs3) => some (ImportDecl.mk none p, parseSemi cs3)
        else
          match matchKeyword "type".data ('t' :: 'y' :: 'p' :: 'e' :: ' ' ::
            ((printClauseBody nm nb).data ++
              (' ' :: 'f' :: 'r' :: 'o' :: 'm' :: ' ' :: '"' ::
                (path.data ++ '"' :: ';' :: rest)))) with
          | some r => parseImportClause true (dropWs r)
          | none => parseImportClause false ('t' :: 'y' :: 'p' :: 'e' :: ' ' ::
              ((printClauseBody nm nb).data ++
                (' ' :: 'f' :: 'r' :: 'o' :: 'm' :: ' ' :: '"' ::
                  (path.data ++ '"' :: ';' :: rest))))) =
        some (ImportDecl.mk (some (ImportClause.mk true nm nb)) path, rest)
      rw [if_neg (by decide)]
      rw [show ('t' :: 'y' :: 'p' :: 'e' :: ' ' ::
          ((printClauseBody nm nb).data ++
            (' ' :: 'f' :: 'r' :: 'o' :: 'm' :: ' ' :: '"' ::
              (path.data ++ '"' :: ';' :: rest)))) =
        "type".data ++ (' ' :: ((printClauseBody nm nb).data ++
          (' ' :: 'f' :: 'r' :: 'o' :: 'm' :: ' ' :: '"' ::
            (path.data ++ '"' :: ';' :: rest)))) from rfl]
      rw [matchKeyword_self _ _ (headNot_cons (by decide) _)]
      show parseImportClause true (dropWs (' ' :: ((printClauseBody nm nb).data ++
          (' ' :: 'f' :: 'r' :: 'o' :: 'm' :: ' ' :: '"' ::
            (path.data ++ '"' :: ';' :: rest))))) =
        some (ImportDecl.mk (some (ImportClause.mk true nm nb)) path, rest)
      have hdw2 : dropWs (' ' :: ((printClauseBody nm nb).data ++
          (' ' :: 'f' :: 'r' :: 'o' :: 'm' :: ' ' :: '"' ::
            (path.data ++ '"' :: ';' :: rest)))) =
          (printClauseBody nm nb).data ++
            (' ' :: 'f' :: 'r' :: 'o' :: 'm' :: ' ' :: '"' ::
              (path.data ++ '"' :: ';' :: rest)) := by
        unfold dropWs
        rw [List.dropWhile_cons, if_pos (by decide)]
        exact dropWs_notWs _ hBhead
      rw [hdw2]
      exact parseImportClause_roundtrip hnm hnb hshape hpath

/-! ### What every successful parse produces: well-formed values on a
strictly shorter remainder -/

theorem dropWs_suffix (cs : List Char) : dropWs cs <:+ cs :=
  List.dropWhile_suffix isWsChar

theorem parseSpecifierCore_some {isType : Bool} {cs : List Char} {s : ImportSpecifier}
    {rest : List Char} (h : parseSpecifierCore isType cs = some (s, rest)) :
    wfSpec s ∧ rest <:+ cs := by
  unfold parseSpecifierCore at h
  cases h1 : parseIdent cs with
  | none => simp only [h1] at h; exact Option.noConfusion h
  | some pr =>
    obtain ⟨n1, cs2⟩ := pr
    simp only [h1] at h
    cases h2 : matchKeyword "as".data (dropWs cs2) with
    | some rest2 =>
      simp only [h2] at h
      cases h3 : parseIdent (dropWs rest2) with
      | none => simp only [h3] at h; exact Option.noConfusion h
      | some pr2 =>
        obtain ⟨n2, cs4⟩ := pr2
        simp only [h3] at h
        injection h with h''
        rw [Prod.mk.injEq] at h''
        obtain ⟨rfl, rfl⟩ := h''
        refine ⟨⟨parseIdent_wf h3, ?_⟩, ?_⟩
        · intro p hp
          injection hp with hp'
          rw [← hp']
          exact parseIdent_wf h1
        · have c1 : cs4 <:+ dropWs rest2 := (parseIdent_suffix h3).1
          have c2 : rest2 <:+ dropWs cs2 := matchKeyword_suffix h2
          have c3 : cs2 <:+ cs := (parseIdent_suffix h1).1
          exact (((c1.trans (dropWs_suffix rest2)).trans c2).trans
            (dropWs_suffix cs2)).trans c3
    | none =>
      simp only [h2] at h
      injection h with h''
      rw [Prod.mk.injEq] at h''
      obtain ⟨rfl, rfl⟩ := h''
      refine ⟨⟨parseIdent_wf h1, ?_⟩, (parseIdent_suffix h1).1⟩
      intro p hp
      exact absurd hp (by simp)

theorem parseSpecifier_some {cs : List Char} {s : ImportSpecifier} {rest : List Char}
    (h : parseSpecifier cs = some (s, rest)) : wfSpec s ∧ rest <:+ cs := by
  unfold parseSpecifier at h
  cases h1 : matchKeyword "type".data cs with
  | some r =>
    simp only [h1] at h
    obtain ⟨hwf, hsuf⟩ := parseSpecifierCore_some h
    exact ⟨hwf, (hsuf.trans (dropWs_suffix r)).trans (matchKeyword_suffix h1)⟩
  | none =>
    simp only [h1] at h
    exact parseSpecifierCore_some h

theorem parseSpecList_some : ∀ {fuel : Nat} {cs : List Char} {ss : List ImportSpecifier}
    {rest : List Char}, parseSpecList fuel cs = some (ss, rest) →
    (∀ s ∈ ss, wfSpec s) ∧ rest <:+ cs := by
  intro fuel
  induction fuel with
  | zero =>
    intro cs ss rest h
    exact absurd h (by simp [parseSpecList])
  | succ f ih =>
    intro cs ss rest h
    unfold parseSpecList at h
    cases h1 : parseSpecifier (dropWs cs) with
    | none => simp only [h1] at h; exact Option.noConfusion h
    | some pr =>
      obtain ⟨s, cs1⟩ := pr
      simp only [h1] at h
      obtain ⟨hwfs, hsuf1⟩ := parseSpecifier_some h1
      have hsufcs1 : cs1 <:+ cs := hsuf1.trans (dropWs_suffix cs)
      split at h
      · rename_i rest2 heq
        injection h with h'
        rw [Prod.mk.injEq] at h'
        obtain ⟨rfl, rfl⟩ := h'
        refine ⟨?_, ?_⟩
        · intro x hx
          rw [List.mem_singleton] at hx
          subst hx
          exact hwfs
        · have hx : rest2 <:+ dropWs cs1 := by
            rw [heq]
            exact List.suffix_cons _ _
          exact (hx.trans (dropWs_suffix cs1)).trans hsufcs1
      · rename_i rest2 heq
        have hrest2 : rest2 <:+ cs := by
          have hx : rest2 <:+ dropWs cs1 := by
            rw [heq]
            exact List.suffix_cons _ _
          exact (hx.trans (dropWs_suffix cs1)).trans hsufcs1
        split at h
        · rename_i rest3 heq2
          injection h with h'
          rw [Prod.mk.injEq] at h'
          obtain ⟨rfl, rfl⟩ := h'
          refine ⟨?_, ?_⟩
          · intro x hx
            rw [List.mem_singleton] at hx
            subst hx
            exact hwfs
          · have hx : rest3 <:+ dropWs rest2 := by
              rw [heq2]
              exact List.suffix_cons _ _
            exact (hx.trans (dropWs_suffix rest2)).trans hrest2
        · cases h4 : parseSpecList f (dropWs rest2) with
          | none => simp only [h4] at h; exact Option.noConfusion h
          | some pr2 =>
            obtain ⟨ss2, csf⟩ := pr2
            simp only [h4] at h
            injection h with h''
            rw [Prod.mk.injEq] at h''
            obtain ⟨rfl, rfl⟩ := h''
            obtain ⟨hwf2, hsuf2⟩ := ih h4
            refine ⟨?_, ?_⟩
            · intro x hx
              rcases List.mem_cons.mp hx with rfl | hx
              · exact hwfs
              · exact hwf2 x hx
            · exact (hsuf2.trans (dropWs_suffix rest2)).trans hrest2
      · exact Option.noConfusion h

theorem parseNamedImports_some {cs : List Char} {es : List ImportSpecifier}
    {rest : List Char} (h : parseNamedImports cs = some (es, rest)) :
    (∀ s ∈ es, wfSpec s) ∧ rest <:+ cs := by
  unfold parseNamedImports at h
  split at h
  · rename_i rest0
    split at h
    · rename_i rest1 heq
      injection h with h'
      rw [Prod.mk.injEq] at h'
      obtain ⟨rfl, rfl⟩ := h'
      refine ⟨by intro x hx; simp at hx, ?_⟩
      have hx : rest1 <:+ dropWs rest0 := by
        rw [heq]
        exact List.suffix_cons _ _
      exact ((hx.trans (dropWs_suffix rest0)).trans (List.suffix_cons '\x7b' rest0))
    · obtain ⟨hwf, hsuf⟩ := parseSpecList_some h
      exact ⟨hwf, (hsuf.trans (dropWs_suffix rest0)).trans (List.suffix_cons '\x7b' rest0)⟩
  · exact absurd h (by simp)

theorem parseBindings_some {cs : List Char} {nb : NamedBindings} {rest : List Char}
    (h : parseBindings cs = some (nb, rest)) : wfBindings nb ∧ rest <:+ cs := by
  unfold parseBindings at h
  split at h
  · rename_i x
    cases h1 : parseNamedImports ('\x7b' :: x) with
    | none => simp only [h1] at h; exact Option.noConfusion h
    | some pr =>
      obtain ⟨es, r⟩ := pr
      simp only [h1] at h
      injection h with h''
      rw [Prod.mk.injEq] at h''
      obtain ⟨rfl, rfl⟩ := h''
      obtain ⟨hwf, hsuf⟩ := parseNamedImports_some h1
      exact ⟨hwf, hsuf⟩
  · rename_i rest0
    cases h1 : matchKeyword "as".data (dropWs rest0) with
    | none => simp only [h1] at h; exact Option.noConfusion h
    | some r2 =>
      simp only [h1] at h
      cases h2 : parseIdent (dropWs r2) with
      | none => simp only [h2] at h; exact Option.noConfusion h
      | some pr =>
        obtain ⟨n, r3⟩ := pr
        simp only [h2] at h
        injection h with h''
        rw [Prod.mk.injEq] at h''
        obtain ⟨rfl, rfl⟩ := h''
        refine ⟨parseIdent_wf h2, ?_⟩
        have c1 : r3 <:+ dropWs r2 := (parseIdent_suffix h2).1
        have c2 : r2 <:+ dropWs rest0 := matchKeyword_suffix h1
        exact ((((c1.trans (dropWs_suffix r2)).trans c2).trans
          (dropWs_suffix rest0)).trans (List.suffix_cons '*' rest0))
  · exact absurd h (by simp)

theorem parseClauseBody_some {cs : List Char} {nm : Option String}
    {nb : Option NamedBindings} {rest : List Char}
    (h : parseClauseBody cs = some (nm, nb, rest)) :
    (∀ n, nm = some n → wfIdent n) ∧ (∀ b, nb = some b → wfBindings b) ∧
      ¬(nm = none ∧ nb = none) ∧ rest <:+ cs := by
  unfold parseClauseBody at h
  split at h
  · rename_i x
    cases h1 : parseBindings ('\x7b' :: x) with
    | none => simp only [h1] at h; exact Option.noConfusion h
    | some pr =>
      obtain ⟨b, r⟩ := pr
      simp only [h1] at h
      injection h with h''
      rw [Prod.mk.injEq, Prod.mk.injEq] at h''
      obtain ⟨rfl, rfl, rfl⟩ := h''
      obtain ⟨hwf, hsuf⟩ := parseBindings_some h1
      refine ⟨by intro n hn; exact absurd hn (by simp), ?_, ?_, hsuf⟩
      · intro b2 hb2
        injection hb2 with hb2'
        rw [← hb2']
        exact hwf
      · rintro ⟨-, h2⟩
        exact Option.noConfusion h2
  · rename_i x
    cases h1 : parseBindings ('*' :: x) with
    | none => simp only [h1] at h; exact Option.noConfusion h
    | some pr =>
      obtain ⟨b, r⟩ := pr
      simp only [h1] at h
      injection h with h''
      rw [Prod.mk.injEq, Prod.mk.injEq] at h''
      obtain ⟨rfl, rfl, rfl⟩ := h''
      obtain ⟨hwf, hsuf⟩ := parseBindings_some h1
      refine ⟨by intro n hn; exact absurd hn (by simp), ?_, ?_, hsuf⟩
      · intro b2 hb2
        injection hb2 with hb2'
        rw [← hb2']
        exact hwf
      · rintro ⟨-, h2⟩
        exact Option.noConfusion h2
  · cases h1 : parseIdent cs with
    | none => simp only [h1] at h; exact Option.noConfusion h
    | some pr =>
      obtain ⟨nm0, cs1⟩ := pr
      simp only [h1] at h
      have hsufcs1 : cs1 <:+ cs := (parseIdent_suffix h1).1
      split at h
      · rename_i rest2 heq
        cases h2 : parseBindings (dropWs rest2) with
        | none => simp only [h2] at h; exact Option.noConfusion h
        | some pr2 =>
          obtain ⟨b, r⟩ := pr2
          simp only [h2] at h
          injection h with h''
          rw [Prod.mk.injEq, Prod.mk.injEq] at h''
          obtain ⟨rfl, rfl, rfl⟩ := h''
          obtain ⟨hwf, hsuf⟩ := parseBindings_some h2
          refine ⟨?_, ?_, ?_, ?_⟩
          · intro n hn
            injection hn with hn'
            rw [← hn']
            exact parseIdent_wf h1
          · intro b2 hb2
            injection hb2 with hb2'
            rw [← hb2']
            exact hwf
          · rintro ⟨h2', -⟩
            exact Option.noConfusion h2'
          · have hx : rest2 <:+ dropWs cs1 := by
              rw [heq]
              exact List.suffix_cons _ _
            exact ((hsuf.trans (dropWs_suffix rest2)).trans
              ((hx.trans (dropWs_suffix cs1)).trans hsufcs1))
      · injection h with h''
        rw [Prod.mk.injEq, Prod.mk.injEq] at h''
        obtain ⟨rfl, rfl, rfl⟩ := h''
        refine ⟨?_, by intro b hb; exact absurd hb (by simp), ?_, hsufcs1⟩
        · intro n hn
          injection hn with hn'
          rw [← hn']
          exact parseIdent_wf h1
        · rintro ⟨h2', -⟩
          exact Option.noConfusion h2'

theorem parseImportClause_some {isType : Bool} {cs : List Char} {d : ImportDecl}
    {rest : List Char} (h : parseImportClause isType cs = some (d, rest)) :
    wfDecl d ∧ rest <:+ cs := by
  unfold parseImportClause at h
  cases h1 : parseClauseBody cs with
  | none => simp only [h1] at h; exact Option.noConfusion h
  | some pr =>
    obtain ⟨nm, nb, cs4⟩ := pr
    simp only [h1] at h
    obtain ⟨hnm, hnb, hshape, hsuf4⟩ := parseClauseBody_some h1
    cases h2 : matchKeyword "from".data (dropWs cs4) with
    | none => simp only [h2] at h; exact Option.noConfusion h
    | some cs5 =>
      simp only [h2] at h
      cases h3 : parseStringLit (dropWs cs5) with
      | none => simp only [h3] at h; exact Option.noConfusion h
      | some pr3 =>
        obtain ⟨path, cs6⟩ := pr3
        simp only [h3] at h
        injection h with h''
        rw [Prod.mk.injEq] at h''
        obtain ⟨rfl, rfl⟩ := h''
        constructor
        · refine ⟨?_, (parseStringLit_some h3).1⟩
          intro c hc
          injection hc with hc'
          rw [← hc']
          refine ⟨hnm, hnb, ?_⟩
          by_cases hn : nm = none
          · right
            intro hb
            exact hshape ⟨hn, hb⟩
          · left
            exact hn
        · have c1 : parseSemi cs6 <:+ cs6 := parseSemi_suffix cs6
          have c2 : cs6 <:+ dropWs cs5 := (parseStringLit_some h3).2.1
          have c3 : cs5 <:+ dropWs cs4 := matchKeyword_suffix h2
          exact ((((c1.trans c2).trans (dropWs_suffix cs5)).trans c3).trans
            (dropWs_suffix cs4)).trans hsuf4

theorem parseImport_some {cs : List Char} {d : ImportDecl} {rest : List Char}
    (h : parseImport cs = some (d, rest)) :
    wfDecl d ∧ rest <:+ cs ∧ rest.length < cs.length := by
  unfold parseImport at h
  cases h1 : matchKeyword "import".data cs with
  | none => simp only [h1] at h; exact Option.noConfusion h
  | some cs1 =>
    simp only [h1] at h
    obtain ⟨hdrop, hlen6⟩ := matchKeyword_eq_some h1
    have hkwlen : ("import".data : List Char).length = 6 := rfl
    have hcs1suf : cs1 <:+ cs := by
      rw [hdrop]
      exact List.drop_suffix _ _
    have hcs1len : cs1.length + 6 ≤ cs.length := by
      rw [hdrop, List.length_drop, hkwlen]
      rw [hkwlen] at hlen6
      omega
    have hfin : ∀ r : List Char, r <:+ cs1 → r <:+ cs ∧ r.length < cs.length := by
      intro r hr
      refine ⟨hr.trans hcs1suf, ?_⟩
      have := hr.length_le
      omega
    split at h
    · exact absurd h (by simp)
    · rename_i c rest2 heq
      have hcr : (c :: rest2) <:+ cs1 := by
        rw [← heq]
        exact dropWs_suffix cs1
      split_ifs at h with hq
      · cases h3 : parseStringLit (c :: rest2) with
        | none => simp only [h3] at h; exact Option.noConfusion h
        | some pr =>
          obtain ⟨path, cs3⟩ := pr
          simp only [h3] at h
          injection h with h''
          rw [Prod.mk.injEq] at h''
          obtain ⟨rfl, rfl⟩ := h''
          refine ⟨⟨by intro c hc; exact absurd hc (by simp),
            (parseStringLit_some h3).1⟩, ?_⟩
          exact hfin _ (((parseSemi_suffix cs3).trans
            (parseStringLit_some h3).2.1).trans hcr)
      · cases h4 : matchKeyword "type".data (c :: rest2) with
        | some r =>
          simp only [h4] at h
          obtain ⟨hwf, hsuf⟩ := parseImportClause_some h
          exact ⟨hwf, hfin _ (((hsuf.trans (dropWs_suffix r)).trans
            (matchKeyword_suffix h4)).trans hcr)⟩
        | none =>
          simp only [h4] at h
          obtain ⟨hwf, hsuf⟩ := parseImportClause_some h
          exact ⟨hwf, hfin _ (hsuf.trans hcr)⟩

/-! ### The leading-run parser: fuel, positions, and the stop condition -/

theorem parseImport_nil : parseImport ([] : List Char) = none := rfl

theorem parseRunF_succ (fuel pos : Nat) (cs : List Char) :
    parseRunF (fuel + 1) pos cs =
      match parseImport (cs.drop (wsCount cs)) with
      | none => []
      | some (d, rest) =>
        (d, pos + wsCount cs,
            pos + wsCount cs + ((cs.drop (wsCount cs)).length - rest.length)) ::
          parseRunF fuel
            (pos + wsCount cs + ((cs.drop (wsCount cs)).length - rest.length)) rest := rfl

theorem parseRunF_nil (fuel pos : Nat) : parseRunF fuel pos [] = [] := by
  cases fuel with
  | zero => rfl
  | succ f => rfl

theorem parseRunF_congr : ∀ (fuel fuel' pos : Nat) (cs : List Char),
    cs.length ≤ fuel → cs.length ≤ fuel' →
    parseRunF fuel pos cs = parseRunF fuel' pos cs := by
  intro fuel
  induction fuel with
  | zero =>
    intro fuel' pos cs h h'
    have hnil : cs = [] := List.eq_nil_of_length_eq_zero (Nat.le_zero.mp h)
    subst hnil
    rw [parseRunF_nil, parseRunF_nil]
  | succ f ih =>
    intro fuel' pos cs h h'
    cases fuel' with
    | zero =>
      have hnil : cs = [] := List.eq_nil_of_length_eq_zero (Nat.le_zero.mp h')
      subst hnil
      rw [parseRunF_nil, parseRunF_nil]
    | succ f' =>
      rw [parseRunF_succ, parseRunF_succ]
      cases hp : parseImport (cs.drop (wsCount cs)) with
      | none => rfl
      | some pr =>
        obtain ⟨d, rest⟩ := pr
        have hlt : rest.length < (cs.drop (wsCount cs)).length :=
          (parseImport_some hp).2.2
        have hds : (cs.drop (wsCount cs)).length ≤ cs.length := by
          rw [List.length_drop]
          omega
        show (d, pos + wsCount cs,
            pos + wsCount cs + ((cs.drop (wsCount cs)).length - rest.length)) ::
          parseRunF f
            (pos + wsCount cs + ((cs.drop (wsCount cs)).length - rest.length)) rest =
          (d, pos + wsCount cs,
            pos + wsCount cs + ((cs.drop (wsCount cs)).length - rest.length)) ::
          parseRunF f'
            (pos + wsCount cs + ((cs.drop (wsCount cs)).length - rest.length)) rest
        rw [ih f' _ rest (by omega) (by omega)]

theorem parseRun_stop {pos : Nat} {cs : List Char}
    (h : parseImport (cs.drop (wsCount cs)) = none) : parseRun pos cs = [] := by
  unfold parseRun
  cases hl : cs.length with
  | zero => rfl
  | succ m => rw [parseRunF_succ, h]

theorem parseRun_ws_cons {c : Char} (hc : isWsChar c = true) (pos : Nat) (cs : List Char) :
    parseRun pos (c :: cs) = parseRun (pos + 1) cs := by
  unfold parseRun
  have hw : wsCount (c :: cs) = wsCount cs + 1 := by
    unfold wsCount
    rw [List.takeWhile_cons, if_pos hc, List.length_cons]
  have hdrop : (c :: cs).drop (wsCount (c :: cs)) = cs.drop (wsCount cs) := by
    rw [hw]
    rfl
  rw [List.length_cons, parseRunF_succ, hdrop]
  cases hl : cs.length with
  | zero =>
    have hnil : cs = [] := List.eq_nil_of_length_eq_zero hl
    subst hnil
    rfl
  | succ m =>
    rw [parseRunF_succ]
    cases hp : parseImport (cs.drop (wsCount cs)) with
    | none => rfl
    | some pr =>
      obtain ⟨d, rest⟩ := pr
      have hlt : rest.length < (cs.drop (wsCount cs)).length :=
        (parseImport_some hp).2.2
      have hds : (cs.drop (wsCount cs)).length ≤ cs.length := by
        rw [List.length_drop]
        omega
      have harith : pos + wsCount (c :: cs) = pos + 1 + wsCount cs := by
        rw [hw]
        omega
      rw [harith]
      show (d, pos + 1 + wsCount cs,
          pos + 1 + wsCount cs + ((cs.drop (wsCount cs)).length - rest.length)) ::
        parseRunF (m + 1)
          (pos + 1 + wsCount cs + ((cs.drop (wsCount cs)).length - rest.length)) rest =
        (d, pos + 1 + wsCount cs,
          pos + 1 + wsCount cs + ((cs.drop (wsCount cs)).length - rest.length)) ::
        parseRunF m
          (pos + 1 + wsCount cs + ((cs.drop (wsCount cs)).length - rest.length)) rest
      rw [parseRunF_congr (m + 1) m _ rest (by omega) (by omega)]

theorem printImport_head (d : ImportDecl) : ∃ t, (printImport d).data = 'i' :: t := by
  obtain ⟨ic, path⟩ := d
  cases ic with
  | none => exact ⟨_, rfl⟩
  | some c =>
    obtain ⟨isT, nm, nb⟩ := c
    cases isT with
    | false => exact ⟨_, rfl⟩
    | true => exact ⟨_, rfl⟩

theorem parseRun_import_cons {d : ImportDecl} (hwf : wfDecl d) (pos : Nat)
    (rest : List Char) :
    parseRun pos ((printImport d).data ++ rest) =
      (d, pos, pos + (printImport d).data.length) ::
        parseRun (pos + (printImport d).data.length) rest := by
  obtain ⟨t, ht⟩ := printImport_head d
  have hlen1 : 0 < (printImport d).data.length := by
    rw [ht]
    simp
  have hws : wsCount ((printImport d).data ++ rest) = 0 := by
    refine wsCount_notWs _ ?_
    rw [ht, List.cons_append]
    show isWsChar 'i' = false
    decide
  unfold parseRun
  have hsucc : ((printImport d).data ++ rest).length =
      ((printImport d).data.length + rest.length - 1) + 1 := by
    rw [List.length_append]
    omega
  rw [hsucc, parseRunF_succ, hws, List.drop_zero, parseImport_print hwf]
  have harith : pos + 0 + (((printImport d).data ++ rest).length - rest.length) =
      pos + (printImport d).data.length := by
    rw [List.length_append]
    omega
  show (d, pos + 0, pos + 0 + (((printImport d).data ++ rest).length - rest.length)) ::
      parseRunF ((printImport d).data.length + rest.length - 1)
        (pos + 0 + (((printImport d).data ++ rest).length - rest.length)) rest = _
  rw [harith]
  have hzero : pos + 0 = pos := rfl
  rw [hzero]
  rw [parseRunF_congr ((printImport d).data.length + rest.length - 1) rest.length
    (pos + (printImport d).data.length) rest (by omega) (by omega)]

theorem parseRun_lines : ∀ (ds : List ImportDecl), (∀ d ∈ ds, wfDecl d) →
    ∀ (pos : Nat) (rest : List Char),
    parseRun pos (linesData ds ++ rest) =
      attachRun ds pos ++ parseRun (pos + (linesData ds).length) rest := by
  intro ds
  induction ds with
  | nil =>
    intro _ pos rest
    show parseRun pos ([] ++ rest) = [] ++ parseRun (pos + (0 : Nat)) rest
    rw [List.nil_append, List.nil_append]
    rfl
  | cons d ds ih =>
    intro hwf pos rest
    cases ds with
    | nil =>
      show parseRun pos ((printImport d).data ++ rest) = _
      rw [parseRun_import_cons (hwf d (by simp)) pos rest]
      rfl
    | cons d2 tl =>
      show parseRun pos (((printImport d).data ++ '\n' :: linesData (d2 :: tl)) ++ rest) = _
      rw [List.append_assoc, List.cons_append]
      rw [parseRun_import_cons (hwf d (by simp)) pos _]
      rw [parseRun_ws_cons (by decide) _ _]
      rw [ih (fun x hx => hwf x (by simp [hx])) _ rest]
      show _ = (d, pos, pos + (printImport d).data.length) ::
        (attachRun (d2 :: tl) (pos + (printImport d).data.length + 1) ++
          parseRun (pos + ((printImport d).data ++ '\n' :: linesData (d2 :: tl)).length) rest)
      have heq : pos + (printImport d).data.length + 1 + (linesData (d2 :: tl)).length =
          pos + ((printImport d).data ++ '\n' :: linesData (d2 :: tl)).length := by
        rw [List.length_append, List.length_cons]
        omega
      rw [heq]

theorem foldl_end_init (l : List (ImportDecl × Nat × Nat)) (hl : l ≠ []) (a b : Nat) :
    l.foldl (fun _ p => p.2.2) a = l.foldl (fun _ p => p.2.2) b := by
  cases l with
  | nil => exact absurd rfl hl
  | cons x xs => rfl

theorem foldl_end_cons (d : ImportDecl) (b e : Nat) (xs : List (ImportDecl × Nat × Nat))
    (a : Nat) :
    ((d, b, e) :: xs).foldl (fun _ p => p.2.2) a = xs.foldl (fun _ p => p.2.2) e := rfl

theorem drop_sub_shift {cs rest : List Char} {k pos a f : Nat} (hr : rest = cs.drop k)
    (ha : pos + k = a) (hf : a ≤ f) :
    cs.drop (f - pos) = rest.drop (f - a) := by
  rw [hr, List.drop_drop, ← ha]
  congr 1
  omega

theorem parseRunF_tail : ∀ (fuel pos : Nat) (cs : List Char), cs.length ≤ fuel →
    (∀ p ∈ parseRunF fuel pos cs, wfDecl p.1) ∧
    (cs.drop ((parseRunF fuel pos cs).foldl (fun _ p => p.2.2) pos - pos)).drop
        (wsCount (cs.drop ((parseRunF fuel pos cs).foldl (fun _ p => p.2.2) pos - pos))) ∈
      ({x | parseImport x = none} : Set (List Char)) ∧
    (parseRunF fuel pos cs).foldl (fun _ p => p.2.2) pos - pos ≤ cs.length ∧
    pos ≤ (parseRunF fuel pos cs).foldl (fun _ p => p.2.2) pos := by
  intro fuel
  induction fuel with
  | zero =>
    intro pos cs h
    have hnil : cs = [] := List.eq_nil_of_length_eq_zero (Nat.le_zero.mp h)
    subst hnil
    rw [parseRunF_nil]
    refine ⟨by intro p hp; exact absurd hp (by simp), ?_, by simp, le_refl pos⟩
    show parseImport _ = none
    simp [parseImport_nil]
  | succ f ih =>
    intro pos cs h
    rw [parseRunF_succ]
    cases hp : parseImport (cs.drop (wsCount cs)) with
    | none =>
      show (∀ p ∈ ([] : List (ImportDecl × Nat × Nat)), wfDecl p.1) ∧ _ ∧ _ ∧ _
      refine ⟨by intro p hp; exact absurd hp (by simp), ?_, by simp, le_refl pos⟩
      show parseImport _ = none
      simp only [List.foldl_nil, Nat.sub_self, List.drop_zero]
      exact hp
    | some pr =>
      obtain ⟨d, rest⟩ := pr
      obtain ⟨hwfd, hsuf, hlt⟩ := parseImport_some hp
      have hds : (cs.drop (wsCount cs)).length = cs.length - wsCount cs :=
        List.length_drop _ _
      have hwsle : wsCount cs ≤ cs.length := wsCount_le cs
      have hrle : rest.length ≤ f := by omega
      obtain ⟨ihwf, ihstop, ihle, ihpos⟩ :=
        ih (pos + wsCount cs + ((cs.drop (wsCount cs)).length - rest.length)) rest hrle
      rw [foldl_end_cons]
      have hreste : rest = cs.drop (wsCount cs + ((cs.drop (wsCount cs)).length -
          rest.length)) := by
        have h1 := suffix_eq_drop hsuf
        rw [← List.drop_drop]
        exact h1
      constructor
      · intro p hpmem
        rcases List.mem_cons.mp hpmem with rfl | hpmem
        · exact hwfd
        · exact ihwf p hpmem
      refine ⟨?_, ?_, ?_⟩
      · show parseImport _ = none
        rw [drop_sub_shift hreste (by omega) ihpos]
        exact ihstop
      · omega
      · omega

theorem collectImports_append_other (xs : List Stmt) (a b : Nat) (ys : List Stmt) :
    collectImports (xs ++ Stmt.other a b :: ys) = collectImports xs := by
  induction xs with
  | nil => rfl
  | cons s xs ih =>
    cases s with
    | imp d i e =>
      show (d, e) :: collectImports (xs ++ Stmt.other a b :: ys) = (d, e) :: collectImports xs
      rw [ih]
    | other i e => rfl

theorem collectImports_map_imp (run : List (ImportDecl × Nat × Nat)) (tail : List Stmt)
    (htail : tail = [] ∨ ∃ a b ys, tail = Stmt.other a b :: ys) :
    collectImports (run.map (fun p => Stmt.imp p.1 p.2.1 p.2.2) ++ tail) =
      run.map (fun p => (p.1, p.2.2)) := by
  induction run with
  | nil =>
    rcases htail with rfl | ⟨a, b, ys, rfl⟩
    · rfl
    · rfl
  | cons p run ih =>
    show (p.1, p.2.2) :: collectImports (run.map _ ++ tail) = (p.1, p.2.2) :: run.map _
    rw [ih]

theorem collectImports_createSourceFile (text : String) :
    collectImports (createSourceFile text) =
      (parseRun 0 text.data).map (fun p => (p.1, p.2.2)) := by
  simp only [createSourceFile]
  split_ifs with h
  · have := collectImports_map_imp (parseRun 0 text.data) [] (Or.inl rfl)
    simpa using this
  · exact collectImports_map_imp _ _ (Or.inr ⟨_, _, _, rfl⟩)

theorem lastImportEndOf_map (run : List (ImportDecl × Nat × Nat)) :
    lastImportEndOf (run.map (fun p => (p.1, p.2.2))) = runLastEnd run := by
  unfold lastImportEndOf runLastEnd
  rw [List.foldl_map]

/-! ### The named-binding sorter and the comparator under re-sorting -/

theorem sortNamedImports_modulePath (d : ImportDecl) :
    (sortNamedImports d).modulePath = d.modulePath := by
  obtain ⟨ic, path⟩ := d
  cases ic with
  | none => rfl
  | some c =>
    obtain ⟨isT, nm, nb⟩ := c
    cases nb with
    | none => rfl
    | some b =>
      cases b with
      | namespaceImport n => rfl
      | named es => rfl

theorem sortImports_sortNamed (m : String) (a b : ImportDecl) :
    sortImports m (sortNamedImports a) (sortNamedImports b) = sortImports m a b := by
  show cmpModules m (sortNamedImports a).modulePath (sortNamedImports b).modulePath = _
  rw [sortNamedImports_modulePath, sortNamedImports_modulePath]
  rfl

theorem importLe_sortNamed (m : String) (a b : ImportDecl) :
    importLe m (sortNamedImports a) (sortNamedImports b) ↔ importLe m a b := by
  unfold importLe
  rw [sortImports_sortNamed]

theorem sortNamedImports_wf {d : ImportDecl} (h : wfDecl d) : wfDecl (sortNamedImports d) := by
  obtain ⟨ic, path⟩ := d
  obtain ⟨hcl, hpath⟩ := h
  cases ic with
  | none => exact ⟨hcl, hpath⟩
  | some c =>
    obtain ⟨isT, nm, nb⟩ := c
    obtain ⟨hn, hb, hs⟩ := hcl _ rfl
    cases nb with
    | none => exact ⟨hcl, hpath⟩
    | some b =>
      cases b with
      | namespaceImport n => exact ⟨hcl, hpath⟩
      | named es =>
        refine ⟨?_, hpath⟩
        intro c hc
        injection hc with hc'
        rw [← hc']
        refine ⟨hn, ?_, Or.inr (by simp)⟩
        intro b2 hb2
        injection hb2 with hb2'
        rw [← hb2']
        intro sp hsp
        have hmem : sp ∈ es := (List.perm_insertionSort specLe es).subset hsp
        exact (hb _ rfl) sp hmem

theorem sortNamedImports_idem (d : ImportDecl) :
    sortNamedImports (sortNamedImports d) = sortNamedImports d := by
  obtain ⟨ic, path⟩ := d
  cases ic with
  | none => rfl
  | some c =>
    obtain ⟨isT, nm, nb⟩ := c
    cases nb with
    | none => rfl
    | some b =>
      cases b with
      | namespaceImport n => rfl
      | named es =>
        have hsorted : List.Sorted specLe (es.insertionSort specLe) := by
          haveI : IsTotal ImportSpecifier specLe := ⟨specLe_total⟩
          haveI : IsTrans ImportSpecifier specLe := ⟨fun a b c => specLe_trans a b c⟩
          exact List.sorted_insertionSort specLe es
        have heq : (es.insertionSort specLe).insertionSort specLe =
            es.insertionSort specLe := hsorted.insertionSort_eq
        show ImportDecl.mk (some (ImportClause.mk isT nm
            (some (NamedBindings.named ((es.insertionSort specLe).insertionSort specLe)))))
            path =
          ImportDecl.mk (some (ImportClause.mk isT nm
            (some (NamedBindings.named (es.insertionSort specLe))))) path
        rw [heq]

theorem map_sortNamed_sorted {m : String} {l : List ImportDecl}
    (h : List.Sorted (importLe m) l) :
    List.Sorted (importLe m) (l.map sortNamedImports) := by
  rw [List.Sorted, List.pairwise_map]
  exact h.imp (fun hab => (importLe_sortNamed m _ _).mpr hab)

theorem map_sortNamed_idem (l : List ImportDecl) :
    (l.map sortNamedImports).map sortNamedImports = l.map sortNamedImports := by
  rw [List.map_map]
  exact List.map_congr_left (fun a _ => sortNamedImports_idem a)

theorem length_filter_not_add (p : ImportDecl → Bool) (l : List ImportDecl) :
    (l.filter p).length + (l.filter (fun a => !(p a))).length = l.length := by
  induction l with
  | nil => rfl
  | cons a l ih =>
    cases hp : p a with
    | true =>
      rw [List.filter_cons, List.filter_cons, hp]
      simp only [if_pos trivial, List.length_cons]
      have : (!true) = false := rfl
      simp [hp, ih]
      omega
    | false =>
      rw [List.filter_cons, List.filter_cons, hp]
      simp [hp, ih]
      omega

/-! ### The rendered block as character data -/

theorem joinSep_nl_data : ∀ ds : List ImportDecl,
    (joinSep "\n" (ds.map printImport)).data = linesData ds := by
  intro ds
  induction ds with
  | nil => rfl
  | cons d ds ih =>
    cases ds with
    | nil => rfl
    | cons d2 t =>
      show (printImport d ++ "\n" ++ joinSep "\n" ((d2 :: t).map printImport)).data =
        (printImport d).data ++ '\n' :: linesData (d2 :: t)
      rw [data_append, data_append, ih]
      simp [List.append_assoc]

theorem renderData_both {stp sl : List ImportDecl} (h1 : stp ≠ []) (h2 : sl ≠ []) :
    (renderImportBlock stp sl).data =
      linesData stp ++ '\n' :: '\n' :: linesData sl := by
  unfold renderImportBlock
  rw [if_pos ⟨List.length_pos.mpr h2, List.length_pos.mpr h1⟩]
  rw [data_append, data_append, joinSep_nl_data, joinSep_nl_data]
  simp [List.append_assoc]

theorem renderData_third (stp : List ImportDecl) :
    (renderImportBlock stp []).data = linesData stp := by
  unfold renderImportBlock
  rw [if_neg (by simp)]
  rw [data_append, data_append, joinSep_nl_data, joinSep_nl_data]
  simp [linesData]

theorem renderData_local (sl : List ImportDecl) :
    (renderImportBlock [] sl).data = linesData sl := by
  unfold renderImportBlock
  rw [if_neg (by simp)]
  rw [data_append, data_append, joinSep_nl_data, joinSep_nl_data]
  simp [linesData]

theorem attachRun_fst : ∀ (ds : List ImportDecl) (pos : Nat),
    (attachRun ds pos).map (fun p => p.1) = ds := by
  intro ds
  induction ds with
  | nil => intro pos; rfl
  | cons d t ih =>
    intro pos
    show d :: (attachRun t (pos + (printImport d).data.length + 1)).map (fun p => p.1) =
      d :: t
    rw [ih]

theorem attachRun_ne_nil {ds : List ImportDecl} (h : ds ≠ []) (pos : Nat) :
    attachRun ds pos ≠ [] := by
  cases ds with
  | nil => exact absurd rfl h
  | cons d t => simp [attachRun]

theorem runLastEnd_append (r1 r2 : List (ImportDecl × Nat × Nat)) (h : r2 ≠ []) :
    runLastEnd (r1 ++ r2) = runLastEnd r2 := by
  unfold runLastEnd
  rw [List.foldl_append]
  exact foldl_end_init r2 h _ 0

theorem attachRun_lastEnd : ∀ (ds : List ImportDecl) (pos : Nat), ds ≠ [] →
    runLastEnd (attachRun ds pos) = pos + (linesData ds).length := by
  intro ds
  induction ds with
  | nil => intro pos h; exact absurd rfl h
  | cons d t ih =>
    intro pos _
    cases t with
    | nil =>
      show runLastEnd [(d, pos, pos + (printImport d).data.length)] =
        pos + (printImport d).data.length
      rfl
    | cons d2 tt =>
      show runLastEnd ((d, pos, pos + (printImport d).data.length) ::
        attachRun (d2 :: tt) (pos + (printImport d).data.length + 1)) = _
      unfold runLastEnd
      rw [foldl_end_cons]
      have hne := attachRun_ne_nil (by simp : (d2 :: tt : List ImportDecl) ≠ [])
        (pos + (printImport d).data.length + 1)
      rw [foldl_end_init _ hne _ 0]
      have := ih (pos + (printImport d).data.length + 1) (by simp)
      unfold runLastEnd at this
      rw [this]
      show pos + (printImport d).data.length + 1 + (linesData (d2 :: tt)).length =
        pos + ((printImport d).data ++ '\n' :: linesData (d2 :: tt)).length
      rw [List.length_append, List.length_cons]
      omega

/-! ### Re-parsing the rendered block -/

theorem run_of_block {stp sl : List ImportDecl} {L : List Char}
    (hwf1 : ∀ d ∈ stp, wfDecl d) (hwf2 : ∀ d ∈ sl, wfDecl d)
    (hstop : parseImport (L.drop (wsCount L)) = none) :
    parseRun 0 ((renderImportBlock stp sl).data ++ L) =
      attachRun stp 0 ++
        attachRun sl
          ((renderImportBlock stp sl).data.length - (linesData sl).length) := by
  cases stp with
  | nil =>
    rw [renderData_local, parseRun_lines sl hwf2 0 L, parseRun_stop hstop,
      List.append_nil]
    show attachRun sl 0 = [] ++ attachRun sl ((linesData sl).length - (linesData sl).length)
    rw [List.nil_append, Nat.sub_self]
  | cons d1 t1 =>
    cases sl with
    | nil =>
      rw [renderData_third, parseRun_lines (d1 :: t1) hwf1 0 L, parseRun_stop hstop,
        List.append_nil]
      show attachRun (d1 :: t1) 0 = attachRun (d1 :: t1) 0 ++ []
      rw [List.append_nil]
    | cons d2 t2 =>
      rw [renderData_both (by simp) (by simp), List.append_assoc, List.cons_append,
        List.cons_append]
      rw [parseRun_lines (d1 :: t1) hwf1 0 _]
      rw [parseRun_ws_cons (by decide), parseRun_ws_cons (by decide)]
      rw [parseRun_lines (d2 :: t2) hwf2 _ L]
      rw [parseRun_stop hstop, List.append_nil]
      have hpos : 0 + (linesData (d1 :: t1)).length + 1 + 1 =
          (linesData (d1 :: t1) ++ '\n' :: '\n' :: linesData (d2 :: t2)).length -
            (linesData (d2 :: t2)).length := by
        rw [List.length_append, List.length_cons, List.length_cons]
        omega
      rw [hpos]

theorem core_of_block {stp sl : List ImportDecl} {L : List Char} {cfg : Config}
    (hwf1 : ∀ d ∈ stp, wfDecl d) (hwf2 : ∀ d ∈ sl, wfDecl d)
    (hloc1 : ∀ d ∈ stp, isLocalImport cfg d.modulePath = false)
    (hloc2 : ∀ d ∈ sl, isLocalImport cfg d.modulePath = true)
    (hs1 : List.Sorted (importLe cfg.sortMethod) stp)
    (hs2 : List.Sorted (importLe cfg.sortMethod) sl)
    (hm1 : stp.map sortNamedImports = stp) (hm2 : sl.map sortNamedImports = sl)
    (hne : stp ++ sl ≠ [])
    (hstop : parseImport (L.drop (wsCount L)) = none) :
    organizeImportsCore (String.mk ((renderImportBlock stp sl).data ++ L)) cfg =
      some ((renderImportBlock stp sl).data.length, renderImportBlock stp sl) := by
  have hrun := run_of_block hwf1 hwf2 hstop
  have hcol := collectImports_createSourceFile (String.mk ((renderImportBlock stp sl).data ++ L))
  have hd : (String.mk ((renderImportBlock stp sl).data ++ L)).data =
      (renderImportBlock stp sl).data ++ L := rfl
  rw [hd, hrun] at hcol
  have himports : (((attachRun stp 0 ++
      attachRun sl ((renderImportBlock stp sl).data.length - (linesData sl).length)).map
        (fun p => (p.1, p.2.2))).map Prod.fst) = stp ++ sl := by
    rw [List.map_map, List.map_append]
    have e1 : (Prod.fst ∘ fun p : ImportDecl × Nat × Nat => (p.1, p.2.2)) =
        (fun p : ImportDecl × Nat × Nat => p.1) := rfl
    rw [e1, attachRun_fst, attachRun_fst]
  have hlast : runLastEnd (attachRun stp 0 ++
      attachRun sl ((renderImportBlock stp sl).data.length - (linesData sl).length)) =
      (renderImportBlock stp sl).data.length := by
    cases sl with
    | nil =>
      have h0 : attachRun ([] : List ImportDecl)
          ((renderImportBlock stp []).data.length - (linesData []).length) = [] := rfl
      rw [h0, List.append_nil]
      cases stp with
      | nil => exact absurd rfl hne
      | cons d t =>
        rw [attachRun_lastEnd (d :: t) 0 (by simp), renderData_third]
        omega
    | cons d2 t2 =>
      rw [runLastEnd_append _ _ (attachRun_ne_nil (by simp) _),
        attachRun_lastEnd (d2 :: t2) _ (by simp)]
      cases stp with
      | nil =>
        rw [renderData_local]
        omega
      | cons d1 t1 =>
        rw [renderData_both (by simp) (by simp), List.length_append, List.length_cons,
          List.length_cons]
        omega
  have hfil1 : (stp ++ sl).filter (fun imp => isLocalImport cfg imp.modulePath) = sl := by
    rw [List.filter_append, List.filter_eq_nil_iff.mpr ?hn, List.filter_eq_self.mpr ?hs,
      List.nil_append]
    case hn =>
      intro a ha hcontra
      rw [hloc1 a ha] at hcontra
      exact Bool.noConfusion hcontra
    case hs =>
      intro a ha
      exact hloc2 a ha
  have hfil2 : (stp ++ sl).filter (not ∘ fun imp => isLocalImport cfg imp.modulePath) =
      stp := by
    rw [List.filter_append, List.filter_eq_self.mpr ?hs2, List.filter_eq_nil_iff.mpr ?hn2,
      List.append_nil]
    case hs2 =>
      intro a ha
      show (!(isLocalImport cfg a.modulePath)) = true
      rw [hloc1 a ha]
      rfl
    case hn2 =>
      intro a ha hcontra
      have hc2 : (!(isLocalImport cfg a.modulePath)) = true := hcontra
      rw [hloc2 a ha] at hc2
      exact Bool.noConfusion hc2
  haveI : IsTotal ImportDecl (importLe cfg.sortMethod) := ⟨importLe_total cfg.sortMethod⟩
  haveI : IsTrans ImportDecl (importLe cfg.sortMethod) :=
    ⟨fun a b c => importLe_trans cfg.sortMethod a b c⟩
  simp only [organizeImportsCore]
  rw [hcol, himports]
  rw [if_neg (by simp [List.append_eq_nil]; intro h1 h2; exact hne (by rw [h1, h2]; rfl))]
  rw [List.partition_eq_filter_filter]
  show some (lastImportEndOf ((attachRun stp 0 ++
      attachRun sl ((renderImportBlock stp sl).data.length - (linesData sl).length)).map
        (fun p => (p.1, p.2.2))),
      renderImportBlock
        ((((stp ++ sl).filter (not ∘ fun imp => isLocalImport cfg imp.modulePath)).insertionSort
          (importLe cfg.sortMethod)).map sortNamedImports)
        ((((stp ++ sl).filter (fun imp => isLocalImport cfg imp.modulePath)).insertionSort
          (importLe cfg.sortMethod)).map sortNamedImports)) = _
  rw [lastImportEndOf_map, hlast, hfil1, hfil2, hs1.insertionSort_eq, hs2.insertionSort_eq,
    hm1, hm2]

theorem organize_of_block {stp sl : List ImportDecl} {L : List Char} {cfg : Config}
    (hwf1 : ∀ d ∈ stp, wfDecl d) (hwf2 : ∀ d ∈ sl, wfDecl d)
    (hloc1 : ∀ d ∈ stp, isLocalImport cfg d.modulePath = false)
    (hloc2 : ∀ d ∈ sl, isLocalImport cfg d.modulePath = true)
    (hs1 : List.Sorted (importLe cfg.sortMethod) stp)
    (hs2 : List.Sorted (importLe cfg.sortMethod) sl)
    (hm1 : stp.map sortNamedImports = stp) (hm2 : sl.map sortNamedImports = sl)
    (hne : stp ++ sl ≠ [])
    (hstop : parseImport (L.drop (wsCount L)) = none) :
    organizeImports (String.mk ((renderImportBlock stp sl).data ++ L)) cfg =
      .noChange := by
  unfold organizeImports
  rw [core_of_block hwf1 hwf2 hloc1 hloc2 hs1 hs2 hm1 hm2 hne hstop]
  have hguard : jsTake (String.mk ((renderImportBlock stp sl).data ++ L))
      (renderImportBlock stp sl).data.length = renderImportBlock stp sl := by
    unfold jsTake
    show String.mk (((renderImportBlock stp sl).data ++ L).take
      (renderImportBlock stp sl).data.length) = _
    rw [List.take_left]
  show (if jsTake (String.mk ((renderImportBlock stp sl).data ++ L))
      (renderImportBlock stp sl).data.length = renderImportBlock stp sl then
      EditResult.noChange
    else EditResult.replace 0 (renderImportBlock stp sl).data.length
      (renderImportBlock stp sl)) = EditResult.noChange
  rw [if_pos hguard]

theorem mem_sorted_map {r : ImportDecl → ImportDecl → Prop} [DecidableRel r]
    {d : ImportDecl} {l : List ImportDecl}
    (h : d ∈ (l.insertionSort r).map sortNamedImports) :
    ∃ y ∈ l, d = sortNamedImports y := by
  obtain ⟨y, hy, hyd⟩ := List.mem_map.mp h
  exact ⟨y, (List.perm_insertionSort r l).subset hy, hyd.symm⟩

theorem applyEdit_zero (T new : String) (e : Nat) :
    applyEdit T 0 e new = String.mk (new.data ++ T.data.drop e) := rfl

theorem organize_replace_idem {T : String} {cfg : Config} {e : Nat} {new : String}
    (h : organizeImports T cfg = .replace 0 e new) :
    organizeImports (applyEdit T 0 e new) cfg = .noChange := by
  unfold organizeImports at h
  cases hc : organizeImportsCore T cfg with
  | none => rw [hc] at h; exact absurd h (by simp)
  | some pr =>
    obtain ⟨e0, new0⟩ := pr
    rw [hc] at h
    have h' : (if jsTake T e0 = new0 then EditResult.noChange
        else EditResult.replace 0 e0 new0) = EditResult.replace 0 e new := h
    split_ifs at h' with hguard
    rw [EditResult.replace.injEq] at h'
    obtain ⟨-, h2, h3⟩ := h'
    subst h2
    subst h3
    obtain ⟨hwfall, hstop0, hle0, -⟩ := parseRunF_tail T.data.length 0 T.data le_rfl
    have hpr : parseRunF T.data.length 0 T.data = parseRun 0 T.data := rfl
    rw [hpr] at hwfall hstop0
    have hrle : (parseRun 0 T.data).foldl (fun _ p => p.2.2) 0 =
        runLastEnd (parseRun 0 T.data) := rfl
    rw [hrle, Nat.sub_zero] at hstop0
    have hstop1 : parseImport ((T.data.drop (runLastEnd (parseRun 0 T.data))).drop
        (wsCount (T.data.drop (runLastEnd (parseRun 0 T.data))))) = none := hstop0
    simp only [organizeImportsCore] at hc
    rw [collectImports_createSourceFile T, lastImportEndOf_map] at hc
    have him : (((parseRun 0 T.data).map (fun p => (p.1, p.2.2))).map Prod.fst) =
        (parseRun 0 T.data).map (fun p => p.1) := by
      rw [List.map_map]
      rfl
    rw [him] at hc
    split_ifs at hc with hlen
    rw [Option.some.injEq, Prod.mk.injEq] at hc
    obtain ⟨he0, hnew0⟩ := hc
    subst he0
    subst hnew0
    simp only [List.partition_eq_filter_filter]
    rw [applyEdit_zero]
    have hwfIm : ∀ y ∈ (parseRun 0 T.data).map (fun p => p.1), wfDecl y := by
      intro y hy
      obtain ⟨p, hp, hpy⟩ := List.mem_map.mp hy
      rw [← hpy]
      exact hwfall p hp
    haveI : IsTotal ImportDecl (importLe cfg.sortMethod) := ⟨importLe_total cfg.sortMethod⟩
    haveI : IsTrans ImportDecl (importLe cfg.sortMethod) :=
      ⟨fun a b c => importLe_trans cfg.sortMethod a b c⟩
    refine organize_of_block ?_ ?_ ?_ ?_ ?_ ?_ ?_ ?_ ?_ hstop1
    · intro d hd
      obtain ⟨y, hy, hyd⟩ := mem_sorted_map hd
      rw [hyd]
      exact sortNamedImports_wf (hwfIm y (List.mem_of_mem_filter hy))
    · intro d hd
      obtain ⟨y, hy, hyd⟩ := mem_sorted_map hd
      rw [hyd]
      exact sortNamedImports_wf (hwfIm y (List.mem_of_mem_filter hy))
    · intro d hd
      obtain ⟨y, hy, hyd⟩ := mem_sorted_map hd
      have hmf := List.of_mem_filter hy
      have hyl : isLocalImport cfg y.modulePath = false := by
        simpa [Function.comp] using hmf
      rw [hyd, sortNamedImports_modulePath]
      exact hyl
    · intro d hd
      obtain ⟨y, hy, hyd⟩ := mem_sorted_map hd
      have hmf := List.of_mem_filter hy
      rw [hyd, sortNamedImports_modulePath]
      exact hmf
    · exact map_sortNamed_sorted (List.sorted_insertionSort _ _)
    · exact map_sortNamed_sorted (List.sorted_insertionSort _ _)
    · exact map_sortNamed_idem _
    · exact map_sortNamed_idem _
    · have hial : (parseRun 0 T.data).map (fun p => p.1) ≠ [] := by
        intro hn
        rw [hn] at hlen
        exact hlen rfl
      obtain ⟨x, hx⟩ := List.exists_mem_of_ne_nil _ hial
      intro hcontra
      rw [List.append_eq_nil] at hcontra
      obtain ⟨hc1, hc2⟩ := hcontra
      by_cases hpx : isLocalImport cfg x.modulePath = true
      · have hxf : x ∈ ((parseRun 0 T.data).map (fun p => p.1)).filter
            (fun imp => isLocalImport cfg imp.modulePath) := List.mem_filter.mpr ⟨hx, hpx⟩
        rw [List.map_eq_nil_iff] at hc2
        have hperm := List.perm_insertionSort (importLe cfg.sortMethod)
          (((parseRun 0 T.data).map (fun p => p.1)).filter
            (fun imp => isLocalImport cfg imp.modulePath))
        rw [hc2] at hperm
        rw [hperm.symm.eq_nil] at hxf
        exact absurd hxf (by simp)
      · have hpx2 : isLocalImport cfg x.modulePath = false := by
          cases hb : isLocalImport cfg x.modulePath with
          | true => exact absurd hb hpx
          | false => rfl
        have hxf : x ∈ ((parseRun 0 T.data).map (fun p => p.1)).filter
            (not ∘ fun imp => isLocalImport cfg imp.modulePath) := by
          refine List.mem_filter.mpr ⟨hx, ?_⟩
          show (!(isLocalImport cfg x.modulePath)) = true
          rw [hpx2]
          rfl
        rw [List.map_eq_nil_iff] at hc1
        have hperm := List.perm_insertionSort (importLe cfg.sortMethod)
          (((parseRun 0 T.data).map (fun p => p.1)).filter
            (not ∘ fun imp => isLocalImport cfg imp.modulePath))
        rw [hc1] at hperm
        rw [hperm.symm.eq_nil] at hxf
        exact absurd hxf (by simp)

/-! ### Claims C1, C5, C7 -/

/-- C1: the engine is idempotent — whenever `organizeImports` produces a
`Replace` edit, applying that edit and re-running the engine with the same
configuration yields `NoChange`; and whenever the text occupying the target
span already equals the newly rendered import block, the engine returns
`NoChange` directly. -/
theorem claim_C1_idempotence :
    (∀ (T : String) (cfg : Config) (e : Nat) (new : String),
        organizeImports T cfg = .replace 0 e new →
        organizeImports (applyEdit T 0 e new) cfg = .noChange) ∧
    (∀ (T : String) (cfg : Config) (e : Nat) (new : String),
        organizeImportsCore T cfg = some (e, new) → jsTake T e = new →
        organizeImports T cfg = .noChange) := by
  constructor
  · intro T cfg e new h
    exact organize_replace_idem h
  · intro T cfg e new hc hguard
    unfold organizeImports
    rw [hc]
    show (if jsTake T e = new then EditResult.noChange
      else EditResult.replace 0 e new) = EditResult.noChange
    rw [if_pos hguard]

theorem claim_C1_witness :
    organizeImports "import \x7b b, a \x7d from \"m\";\nconst x = 1;" defaultConfig =
      .replace 0 25 "import \x7b a, b \x7d from \"m\";" ∧
    organizeImports (applyEdit "import \x7b b, a \x7d from \"m\";\nconst x = 1;" 0 25
      "import \x7b a, b \x7d from \"m\";") defaultConfig = .noChange :=
  ⟨by rfl, claim_C1_idempotence.1 "import \x7b b, a \x7d from \"m\";\nconst x = 1;"
    defaultConfig 25 "import \x7b a, b \x7d from \"m\";" (by rfl)⟩

theorem collectImports_mem {stmts : List Stmt} {p : ImportDecl × Nat}
    (h : p ∈ collectImports stmts) : ∃ st ∈ stmts, st.endOf = p.2 := by
  induction stmts with
  | nil => simp [collectImports] at h
  | cons st rest ih =>
    cases st with
    | imp d i e =>
      have h' : p ∈ (d, e) :: collectImports rest := h
      rcases List.mem_cons.mp h' with rfl | hmem
      · exact ⟨Stmt.imp d i e, by simp, rfl⟩
      · obtain ⟨st2, hst2, he2⟩ := ih hmem
        exact ⟨st2, by simp [hst2], he2⟩
    | other i e =>
      have h' : p ∈ ([] : List (ImportDecl × Nat)) := h
      simp at h'

theorem foldl_snd_le {l : List (ImportDecl × Nat)} {a : Nat} : ∀ {init : Nat},
    init ≤ a → (∀ p ∈ l, p.2 ≤ a) →
    l.foldl (fun _ p => p.2) init ≤ a := by
  induction l with
  | nil => intro init hinit _; exact hinit
  | cons x xs ih =>
    intro init _ h
    show xs.foldl (fun _ p => p.2) x.2 ≤ a
    exact ih (h x (by simp)) (fun p hp => h p (by simp [hp]))

/-- C5: the extraction loop collects exactly the maximal unbroken prefix
of import statements; statements after the first non-import statement are
never collected, the recorded span stays below the first non-import
statement, and an empty collected prefix makes the engine return
`NoChange`. -/
theorem claim_C5_leading_run :
    (∀ stmts : List Stmt, collectImports stmts =
        (stmts.takeWhile Stmt.isImportDeclaration).filterMap stmtImp?) ∧
    (∀ (xs : List Stmt) (a b : Nat) (ys : List Stmt),
        collectImports (xs ++ Stmt.other a b :: ys) = collectImports xs) ∧
    (∀ (xs : List Stmt) (a b : Nat) (ys : List Stmt),
        (∀ st ∈ xs, st.endOf ≤ a) →
        lastImportEndOf (collectImports (xs ++ Stmt.other a b :: ys)) ≤ a) ∧
    (∀ (T : String) (cfg : Config),
        collectImports (createSourceFile T) = [] →
        organizeImports T cfg = .noChange) := by
  refine ⟨?_, ?_, ?_, ?_⟩
  · intro stmts
    induction stmts with
    | nil => rfl
    | cons st rest ih =>
      cases st with
      | imp d i e =>
        show (d, e) :: collectImports rest = _
        rw [List.takeWhile_cons, if_pos (by rfl)]
        show (d, e) :: collectImports rest = (d, e) :: _
        rw [ih]
      | other i e =>
        show ([] : List (ImportDecl × Nat)) = _
        rw [List.takeWhile_cons, if_neg (by simp [Stmt.isImportDeclaration])]
        rfl
  · exact collectImports_append_other
  · intro xs a b ys hends
    rw [collectImports_append_other]
    refine foldl_snd_le (Nat.zero_le a) ?_
    intro p hp
    obtain ⟨st, hst, hste⟩ := collectImports_mem hp
    rw [← hste]
    exact hends st hst
  · intro T cfg hcol
    unfold organizeImports
    simp only [organizeImportsCore]
    rw [hcol]
    simp

theorem claim_C5_witness :
    collectImports [Stmt.imp (ImportDecl.mk none "m") 0 12, Stmt.other 13 25,
        Stmt.imp (ImportDecl.mk none "n") 26 38] =
      ([Stmt.imp (ImportDecl.mk none "m") 0 12, Stmt.other 13 25,
        Stmt.imp (ImportDecl.mk none "n") 26 38].takeWhile
          Stmt.isImportDeclaration).filterMap stmtImp? ∧
    lastImportEndOf (collectImports ([Stmt.imp (ImportDecl.mk none "m") 0 12] ++
      Stmt.other 13 25 :: [Stmt.imp (ImportDecl.mk none "n") 26 38])) ≤ 13 ∧
    organizeImports "const x = 1;" defaultConfig = .noChange :=
  ⟨claim_C5_leading_run.1 [Stmt.imp (ImportDecl.mk none "m") 0 12, Stmt.other 13 25,
      Stmt.imp (ImportDecl.mk none "n") 26 38],
   claim_C5_leading_run.2.2.1 [Stmt.imp (ImportDecl.mk none "m") 0 12] 13 25
      [Stmt.imp (ImportDecl.mk none "n") 26 38] (by decide),
   claim_C5_leading_run.2.2.2 "const x = 1;" defaultConfig (by rfl)⟩

/-- C7: the engine is total — on every input it yields either the no-edit
outcome or a single `Replace` edit over the span `[0, e)` with `e` inside
the document, so no internal failure ever escapes (internal failures are the
`none`/`[]` cases of the model, all mapped to `NoChange`). -/
theorem claim_C7_error_containment (T : String) (cfg : Config) :
    organizeImports T cfg = .noChange ∨
    ∃ e new, organizeImports T cfg = .replace 0 e new ∧ e ≤ T.data.length := by
  unfold organizeImports
  cases hc : organizeImportsCore T cfg with
  | none => exact Or.inl rfl
  | some pr =>
    obtain ⟨e0, new0⟩ := pr
    by_cases hg : jsTake T e0 = new0
    · left
      show (if jsTake T e0 = new0 then EditResult.noChange
        else EditResult.replace 0 e0 new0) = EditResult.noChange
      rw [if_pos hg]
    · right
      refine ⟨e0, new0, ?_, ?_⟩
      · show (if jsTake T e0 = new0 then EditResult.noChange
          else EditResult.replace 0 e0 new0) = EditResult.replace 0 e0 new0
        rw [if_neg hg]
      · simp only [organizeImportsCore] at hc
        rw [collectImports_createSourceFile T, lastImportEndOf_map] at hc
        split_ifs at hc with hlen
        rw [Option.some.injEq, Prod.mk.injEq] at hc
        obtain ⟨he0, -⟩ := hc
        rw [← he0]
        obtain ⟨-, -, hle0, -⟩ := parseRunF_tail T.data.length 0 T.data le_rfl
        have hpr : parseRunF T.data.length 0 T.data = parseRun 0 T.data := rfl
        rw [hpr] at hle0
        have hrle : (parseRun 0 T.data).foldl (fun _ p => p.2.2) 0 =
            runLastEnd (parseRun 0 T.data) := rfl
        rw [hrle, Nat.sub_zero] at hle0
        exact hle0

/-! ### Claim C6: the split-at-newlines view of the rendered block -/

theorem splitNl_no_nl : ∀ {a : List Char}, (∀ c ∈ a, c ≠ '\n') → splitNl a = [a] := by
  intro a
  induction a with
  | nil => intro _; rfl
  | cons c cs ih =>
    intro h
    have hc : c ≠ '\n' := h c (by simp)
    have ih' := ih (fun x hx => h x (by simp [hx]))
    show (if c = '\n' then [] :: splitNl cs
      else
        match splitNl cs with
        | [] => [[c]]
        | l :: ls => (c :: l) :: ls) = [c :: cs]
    rw [if_neg hc, ih']

theorem splitNl_append_line : ∀ {a : List Char}, (∀ c ∈ a, c ≠ '\n') → ∀ bs : List Char,
    splitNl (a ++ '\n' :: bs) = a :: splitNl bs := by
  intro a
  induction a with
  | nil => intro _ bs; rfl
  | cons c cs ih =>
    intro h bs
    have hc : c ≠ '\n' := h c (by simp)
    have ih' := ih (fun x hx => h x (by simp [hx])) bs
    show (if c = '\n' then [] :: splitNl (cs ++ '\n' :: bs)
      else
        match splitNl (cs ++ '\n' :: bs) with
        | [] => [[c]]
        | l :: ls => (c :: l) :: ls) = (c :: cs) :: splitNl bs
    rw [if_neg hc, ih']

theorem splitNl_linesData_append : ∀ {ds : List ImportDecl}, ds ≠ [] →
    (∀ d ∈ ds, ∀ c ∈ (printImport d).data, c ≠ '\n') → ∀ bs : List Char,
    splitNl (linesData ds ++ '\n' :: bs) =
      ds.map (fun d => (printImport d).data) ++ splitNl bs := by
  intro ds
  induction ds with
  | nil => intro h _ _; exact absurd rfl h
  | cons d t ih =>
    intro _ h bs
    cases t with
    | nil =>
      show splitNl ((printImport d).data ++ '\n' :: bs) = _
      rw [splitNl_append_line (h d (by simp)) bs]
      rfl
    | cons d2 tt =>
      show splitNl (((printImport d).data ++ '\n' :: linesData (d2 :: tt)) ++ '\n' :: bs) = _
      rw [List.append_assoc, List.cons_append]
      rw [splitNl_append_line (h d (by simp))]
      rw [ih (by simp) (fun x hx => h x (by simp [hx])) bs]
      rfl

theorem splitNl_linesData : ∀ {ds : List ImportDecl}, ds ≠ [] →
    (∀ d ∈ ds, ∀ c ∈ (printImport d).data, c ≠ '\n') →
    splitNl (linesData ds) = ds.map (fun d => (printImport d).data) := by
  intro ds
  induction ds with
  | nil => intro h _; exact absurd rfl h
  | cons d t ih =>
    intro _ h
    cases t with
    | nil =>
      show splitNl (printImport d).data = [(printImport d).data]
      exact splitNl_no_nl (h d (by simp))
    | cons d2 tt =>
      show splitNl ((printImport d).data ++ '\n' :: linesData (d2 :: tt)) = _
      rw [splitNl_append_line (h d (by simp))]
      rw [ih (by simp) (fun x hx => h x (by simp [hx]))]
      rfl

/-- C6: the rendered block, split at newlines, is exactly the third-party
lines, then — only when both groups are non-empty — a single blank line,
then the local lines; a rendered line is never blank, so an empty group
introduces no leading, trailing or doubled blank line. -/
theorem claim_C6_block_structure (stp sl : List ImportDecl)
    (h1 : ∀ d ∈ stp, ∀ c ∈ (printImport d).data, c ≠ '\n')
    (h2 : ∀ d ∈ sl, ∀ c ∈ (printImport d).data, c ≠ '\n') :
    (stp ≠ [] → sl ≠ [] →
      splitNl (renderImportBlock stp sl).data =
        stp.map (fun d => (printImport d).data) ++ [[]] ++
          sl.map (fun d => (printImport d).data)) ∧
    (sl = [] → stp ≠ [] →
      splitNl (renderImportBlock stp sl).data =
        stp.map (fun d => (printImport d).data)) ∧
    (stp = [] → sl ≠ [] →
      splitNl (renderImportBlock stp sl).data =
        sl.map (fun d => (printImport d).data)) ∧
    (∀ l ∈ stp.map (fun d => (printImport d).data) ++
        sl.map (fun d => (printImport d).data), l ≠ []) := by
  refine ⟨?_, ?_, ?_, ?_⟩
  · intro hstp hsl
    rw [renderData_both hstp hsl]
    rw [splitNl_linesData_append hstp h1 ('\n' :: linesData sl)]
    show stp.map (fun d => (printImport d).data) ++ [] :: splitNl (linesData sl) = _
    rw [splitNl_linesData hsl h2]
    rw [List.append_assoc]
    rfl
  · intro hsl hstp
    subst hsl
    rw [renderData_third]
    exact splitNl_linesData hstp h1
  · intro hstp hsl
    subst hstp
    rw [renderData_local]
    exact splitNl_linesData hsl h2
  · intro l hl
    have hg : ∀ (m : List (List Char)), l ∈ m →
        (∀ x ∈ m, ∃ d : ImportDecl, x = (printImport d).data) → l ≠ [] := by
      intro m hm hall
      obtain ⟨d, hd⟩ := hall l hm
      obtain ⟨t, ht⟩ := printImport_head d
      rw [hd, ht]
      simp
    refine hg _ hl ?_
    intro x hx
    rcases List.mem_append.mp hx with hx | hx <;>
      · obtain ⟨d, -, hld⟩ := List.mem_map.mp hx
        exact ⟨d, hld.symm⟩

theorem claim_C6_witness :
    splitNl (renderImportBlock [ImportDecl.mk none "a"] [ImportDecl.mk none "./b"]).data =
      [ImportDecl.mk none "a"].map (fun d => (printImport d).data) ++ [[]] ++
        [ImportDecl.mk none "./b"].map (fun d => (printImport d).data) :=
  (claim_C6_block_structure [ImportDecl.mk none "a"] [ImportDecl.mk none "./b"]
    (by decide) (by decide)).1 (by simp) (by simp)

/-- C8: for a declaration with named bindings the sorter returns the same
declaration with its elements stably sorted by display name (the local
binding `name`, which is the alias when one is present) — a permutation that
is `specLe`-sorted and unchanged when there are fewer than two elements;
declarations with no named-bindings list (default-only, namespace, bare)
are returned untouched. -/
theorem claim_C8_named_binding_sorter (d : ImportDecl) :
    (∀ isT nm es, d.importClause = some (ImportClause.mk isT nm
        (some (NamedBindings.named es))) →
      ∃ es', sortNamedImports d = ImportDecl.mk
          (some (ImportClause.mk isT nm (some (NamedBindings.named es')))) d.modulePath ∧
        es'.Perm es ∧ List.Sorted specLe es' ∧ (es.length ≤ 1 → es' = es)) ∧
    (∀ isT nm, d.importClause = some (ImportClause.mk isT nm none) →
      sortNamedImports d = d) ∧
    (∀ isT nm n, d.importClause = some (ImportClause.mk isT nm
        (some (NamedBindings.namespaceImport n))) →
      sortNamedImports d = d) ∧
    (d.importClause = none → sortNamedImports d = d) := by
  obtain ⟨ic, path⟩ := d
  refine ⟨?_, ?_, ?_, ?_⟩
  · intro isT nm es hic
    have hic' : ic = some (ImportClause.mk isT nm (some (NamedBindings.named es))) := hic
    subst hic'
    refine ⟨es.insertionSort specLe, rfl, List.perm_insertionSort specLe es, ?_, ?_⟩
    · haveI : IsTotal ImportSpecifier specLe := ⟨specLe_total⟩
      haveI : IsTrans ImportSpecifier specLe := ⟨fun a b c => specLe_trans a b c⟩
      exact List.sorted_insertionSort specLe es
    · intro hlen
      cases es with
      | nil => rfl
      | cons x t =>
        cases t with
        | nil => rfl
        | cons y tt =>
          exfalso
          simp only [List.length_cons] at hlen
          omega
  · intro isT nm hic
    have hic' : ic = some (ImportClause.mk isT nm none) := hic
    subst hic'
    rfl
  · intro isT nm n hic
    have hic' : ic = some (ImportClause.mk isT nm
      (some (NamedBindings.namespaceImport n))) := hic
    subst hic'
    rfl
  · intro hic
    have hic' : ic = none := hic
    subst hic'
    rfl

theorem claim_C8_witness :
    (∃ es', sortNamedImports (ImportDecl.mk (some (ImportClause.mk false none
        (some (NamedBindings.named [ImportSpecifier.mk false none "b",
          ImportSpecifier.mk false none "a"])))) "m") =
        ImportDecl.mk (some (ImportClause.mk false none
          (some (NamedBindings.named es')))) "m" ∧
      es'.Perm [ImportSpecifier.mk false none "b", ImportSpecifier.mk false none "a"] ∧
      List.Sorted specLe es' ∧
      ([ImportSpecifier.mk false none "b",
        ImportSpecifier.mk false none "a"].length ≤ 1 → es' =
          [ImportSpecifier.mk false none "b", ImportSpecifier.mk false none "a"])) ∧
    printImport (sortNamedImports (ImportDecl.mk (some (ImportClause.mk false none
        (some (NamedBindings.named [ImportSpecifier.mk false none "b",
          ImportSpecifier.mk false none "a"])))) "m")) =
      "import \x7b a, b \x7d from \"m\";" :=
  ⟨(claim_C8_named_binding_sorter (ImportDecl.mk (some (ImportClause.mk false none
      (some (NamedBindings.named [ImportSpecifier.mk false none "b",
        ImportSpecifier.mk false none "a"])))) "m")).1 false none
      [ImportSpecifier.mk false none "b", ImportSpecifier.mk false none "a"] rfl,
   by rfl⟩

/-! ### Claim C4: the documented Example 1 -/

set_option maxHeartbeats 2000000

/-- C4: on the documented Before block under the default configuration the
engine replaces the span `[0, 253)` with `exampleActualOutput`, whose first
line is the default-import react line — NOT the named-import react line the
documentation and the claim put first.  The two modules tie on the primary
key (both are `"react"`, equal length and equal alphabetically), so the
stable sort keeps their original order: default-react came first in the
input and stays first. -/
theorem claim_C4_example_one :
    organizeImports exampleBeforeText defaultConfig =
      .replace 0 253 exampleActualOutput ∧
    (splitNl exampleActualOutput.data).head? =
      some ("import React from \"react\";".data) ∧
    (splitNl exampleActualOutput.data).head? ≠
      some (("import \x7b createContext, useContext, useState \x7d" ++
        " from \"react\";").data) := by
  refine ⟨by rfl, by rfl, by decide⟩

end PrettyImports
